import Mathlib

/-!
Verification of the task-block parser and serializer of the Tasky repository.

The repository contains three variants of the checklist parser and two of the
serializer:
* `parseTasks` / `serializeTask` in `src/unnamed/part_001` (first copy,
  lines 47-160): splits on `\r?\n`, deduplicates tags, trims metadata values;
* a second `parseTasks` / `serializeTask` in the same file (lines 177-266):
  splits on `\n` only, keeps duplicate tags, does not trim metadata values;
* `parseTasksFromContent` / `serializeTaskToBlock` in `src/unnamed/part_000`:
  derives a priority from the checklist line, collects indented metadata
  lines into a `Key: value` map.

Strings are modelled as lists of Unicode code points (`List Char`), matching
JavaScript string semantics code point by code point.  The JavaScript `\s`
character class is modelled over its ASCII members; none of the non-ASCII
space characters occur in the inputs considered here.  Each regular
expression of the source is translated into an explicit scanning function;
every definition is structurally recursive (using an explicit fuel argument
where the source loop skips ahead), so that all of them evaluate inside the
kernel.
-/

abbrev Str := List Char

def strL (s : String) : Str := s.data

/-- The JavaScript `\s` class, restricted to its ASCII members. -/
def jsSpace (c : Char) : Bool :=
  c = ' ' || c = '\t' || c = '\n' || c = '\r' || c = '\x0b' || c = '\x0c'

/-- The character class `[A-Za-z0-9/_-]` of the tag regex in `parseTasks`
(written `[A-Za-z0-9\/\-_]` in the second copy; the same set). -/
def tagChar (c : Char) : Bool :=
  c.isAlpha || c.isDigit || c = '/' || c = '_' || c = '-'

/-- The character class `[A-Za-z0-9_-]` of the inline-field key regex. -/
def keyChar (c : Char) : Bool :=
  c.isAlpha || c.isDigit || c = '_' || c = '-'

/-- The JavaScript `\w` class, `[A-Za-z0-9_]`. -/
def wordChar (c : Char) : Bool :=
  c.isAlpha || c.isDigit || c = '_'

/-- `String.prototype.trim`: strip `\s` from both ends. -/
def trimStr (s : Str) : Str :=
  ((s.dropWhile jsSpace).reverse.dropWhile jsSpace).reverse

/-- `content.split("\n")` of the second `parseTasks` and of
`parseTasksFromContent`. -/
def splitLF : Str → List Str
  | [] => [[]]
  | c :: rest =>
    if c = '\n' then [] :: splitLF rest
    else
      match splitLF rest with
      | [] => [[c]]
      | l :: ls => (c :: l) :: ls

/-- Remove one trailing `\r`, if any. -/
def dropTrailCR (l : Str) : Str :=
  if l.getLast? = some '\r' then l.dropLast else l

/-- Strip one trailing `\r` from every segment except the last. -/
def dropCRInit : List Str → List Str
  | [] => []
  | [l] => [l]
  | l :: l2 :: ls => dropTrailCR l :: dropCRInit (l2 :: ls)

/-- `content.split(/\r?\n/)` of the first `parseTasks`.  Each `\n` ends a
segment and the regex consumes at most one `\r` immediately before it; a
`\r` not followed by `\n` stays in its segment.  Equivalently: split at
every `\n`, then strip one trailing `\r` from every segment that a `\n`
terminated (all but the last). -/
def splitCRLF (s : Str) : List Str := dropCRInit (splitLF s)

/-- `[a, ...rest].join("\n")`. -/
def joinLF : List Str → Str
  | [] => []
  | [l] => l
  | l :: l2 :: ls => l ++ '\n' :: joinLF (l2 :: ls)

/-- `tags.join(" ")`. -/
def joinSpace : List Str → Str
  | [] => []
  | [t] => t
  | t :: t2 :: ts => t ++ ' ' :: joinSpace (t2 :: ts)

/-- Case-insensitive prefix test (ASCII case folding, as the source only
matches ASCII keywords). -/
def isPrefixCI : Str → Str → Bool
  | [], _ => true
  | _ :: _, [] => false
  | p :: ps, c :: cs => (c.toLower = p.toLower) && isPrefixCI ps cs

/-- Case-insensitive prefix removal: `some` of the remainder when the
pattern is a case-insensitive prefix. -/
def stripCI : Str → Str → Option Str
  | [], s => some s
  | _ :: _, [] => none
  | p :: ps, c :: cs => if c.toLower = p.toLower then stripCI ps cs else none

/-- Case-sensitive prefix test (for `String.prototype.includes`). -/
def isPrefixCS : Str → Str → Bool
  | [], _ => true
  | _ :: _, [] => false
  | p :: ps, c :: cs => (c = p) && isPrefixCS ps cs

/-- Does some suffix of `s` satisfy `p`?  (Scanning a regex without an
anchor tries every start position.) -/
def anySuffix (p : Str → Bool) : Str → Bool
  | [] => p []
  | c :: rest => p (c :: rest) || anySuffix p rest

/-- `String.prototype.includes(pat)`. -/
def containsCS (pat : Str) (s : Str) : Bool := anySuffix (isPrefixCS pat) s

/-- `/in[-\s]*progress/i.test(s)`.  At a candidate position, after the
case-insensitive `in` the class `[-\s]*` is a run of hyphens or whitespace;
`p` belongs to neither, so only the maximal run can be followed by
`progress`. -/
def inProgAt (s : Str) : Bool :=
  match stripCI (strL "in") s with
  | none => false
  | some r => isPrefixCI (strL "progress") (r.dropWhile (fun c => c = '-' || jsSpace c))

def inProgTest (s : Str) : Bool := anySuffix inProgAt s

/-- `/cancel/i.test(s)`. -/
def cancelTest (s : Str) : Bool := anySuffix (isPrefixCI (strL "cancel")) s

/-! ### Statuses and priorities -/

inductive Status where
  | todo
  | inProgress
  | done
  | cancelled
deriving DecidableEq, Repr

/-- The string value of each `Status` literal of the source. -/
def statusName : Status → Str
  | Status.todo => strL "todo"
  | Status.inProgress => strL "in-progress"
  | Status.done => strL "done"
  | Status.cancelled => strL "cancelled"

inductive Priority where
  | low
  | medium
  | high
deriving DecidableEq, Repr

/-- The string value of each `Priority` literal of the source. -/
def priorityName : Priority → Str
  | Priority.low => strL "Low"
  | Priority.medium => strL "Medium"
  | Priority.high => strL "High"

/-- Status derivation shared by all three parsers:
`let status = checkbox.toLowerCase().includes("x") ? "done" : "todo";
 if (/in[-\s]*progress/i.test(rest)) status = "in-progress";
 if (/cancel/i.test(rest)) status = "cancelled";`
where `c` is the single character captured inside the brackets. -/
def deriveStatus (c : Char) (rest : Str) : Status :=
  let base := if c = 'x' || c = 'X' then Status.done else Status.todo
  let s1 := if inProgTest rest then Status.inProgress else base
  if cancelTest rest then Status.cancelled else s1

/-! ### The checklist-line regex

`/^\s*-\s*\[([ xX\-])\]\s*(.*)$/` — with the end anchor, the `(.*)` capture
cannot contain `\r` or `\n` (`.` excludes line terminators and `$` without
the `m` flag only matches at the end of the input), so a line whose
remainder contains a stray `\r` does not match at all.  The greedy `\s*`
runs are maximal: the character after each must be the required literal,
which is never in `\s`. -/

def matchChecklist (line : Str) : Option (Char × Str) :=
  match line.dropWhile jsSpace with
  | '-' :: s2 =>
    match s2.dropWhile jsSpace with
    | '[' :: c :: ']' :: s4 =>
      if c = ' ' || c = 'x' || c = 'X' || c = '-' then
        let rest := s4.dropWhile jsSpace
        if rest.contains '\r' || rest.contains '\n' then none
        else some (c, rest)
      else none
    | _ => none
  | _ => none

/-- `/^\s*-\s*\[([ xX\-])\]\s*(.*)/` of `parseTasksFromContent` — no end
anchor, so the capture is simply cut at the first line terminator. -/
def matchChecklistNE (line : Str) : Option (Char × Str) :=
  match line.dropWhile jsSpace with
  | '-' :: s2 =>
    match s2.dropWhile jsSpace with
    | '[' :: c :: ']' :: s4 =>
      if c = ' ' || c = 'x' || c = 'X' || c = '-' then
        some (c, (s4.dropWhile jsSpace).takeWhile (fun ch => ch ≠ '\r' && ch ≠ '\n'))
      else none
    | _ => none
  | _ => none

/-! ### Tag extraction: `rest.matchAll(/#([A-Za-z0-9/_-]+)/g)`

A single left-to-right scan; a match needs a `#` followed by at least one
class character, and is maximal.  `TagMode` records whether the scanner is
between matches, just after a candidate `#`, or inside a match body. -/

inductive TagMode where
  | scan
  | afterHash
  | body (accRev : Str)

def tagStep : Str → TagMode → List Str
  | [], TagMode.scan => []
  | [], TagMode.afterHash => []
  | [], TagMode.body accRev => ['#' :: accRev.reverse]
  | c :: rest, TagMode.scan =>
    if c = '#' then tagStep rest TagMode.afterHash else tagStep rest TagMode.scan
  | c :: rest, TagMode.afterHash =>
    if tagChar c then tagStep rest (TagMode.body [c])
    else if c = '#' then tagStep rest TagMode.afterHash
    else tagStep rest TagMode.scan
  | c :: rest, TagMode.body accRev =>
    if tagChar c then tagStep rest (TagMode.body (c :: accRev))
    else ('#' :: accRev.reverse) ::
      (if c = '#' then tagStep rest TagMode.afterHash else tagStep rest TagMode.scan)

def extractTags (s : Str) : List Str := tagStep s TagMode.scan

/-- `Array.from(new Set(...))`: duplicates collapsed, first-seen order kept. -/
def dedupAux : List Str → List Str → List Str
  | [], _ => []
  | x :: xs, seen =>
    if x ∈ seen then dedupAux xs seen else x :: dedupAux xs (x :: seen)

def dedupFirst (l : List Str) : List Str := dedupAux l []

/-! ### `rest.replace(/#([A-Za-z0-9/_-]+)/g, "")` -/

inductive RmMode where
  | scan
  | afterHash
  | body

def rmStep : Str → RmMode → Str
  | [], RmMode.scan => []
  | [], RmMode.afterHash => ['#']
  | [], RmMode.body => []
  | c :: rest, RmMode.scan =>
    if c = '#' then rmStep rest RmMode.afterHash else c :: rmStep rest RmMode.scan
  | c :: rest, RmMode.afterHash =>
    if tagChar c then rmStep rest RmMode.body
    else '#' :: (if c = '#' then rmStep rest RmMode.afterHash else c :: rmStep rest RmMode.scan)
  | c :: rest, RmMode.body =>
    if tagChar c then rmStep rest RmMode.body
    else if c = '#' then rmStep rest RmMode.afterHash
    else c :: rmStep rest RmMode.scan

def removeTags (s : Str) : Str := rmStep s RmMode.scan

/-- `.replace(/🔺|⏫|⏬/g, "")`: each alternative is a single code point. -/
def removeEmojis (s : Str) : Str :=
  s.filter (fun c => !(c = '🔺' || c = '⏫' || c = '⏬'))

/-! ### `.replace(/\s+#(todo|in-progress|done|cancelled)\b/gi, "")`

The four keywords start with pairwise distinct letters, so after the `#` at
most one alternative is live.  A match needs a non-empty whitespace run, a
`#`, one keyword case-insensitively, and a word boundary.  On failure the
scan resumes inside the attempted region, where no new match can start
before the character that caused the failure (a whitespace run retried at a
later offset fails the same way, and the keyword letters cannot start
`\s+`). -/

def statusKwTail (c : Char) : Option Str :=
  if c.toLower = 't' then some (strL "odo")
  else if c.toLower = 'i' then some (strL "n-progress")
  else if c.toLower = 'd' then some (strL "one")
  else if c.toLower = 'c' then some (strL "ancelled")
  else none

inductive KwMode where
  | scan
  | ws (bufRev : Str)
  | hash (wsRev : Str)
  | kw (wsRev : Str) (origRev : Str) (kwRem : Str)
  | bdry (wsRev : Str) (origRev : Str)

def kwStep : Str → KwMode → Str
  | [], KwMode.scan => []
  | [], KwMode.ws bufRev => bufRev.reverse
  | [], KwMode.hash wsRev => wsRev.reverse ++ ['#']
  | [], KwMode.kw wsRev origRev _ => wsRev.reverse ++ '#' :: origRev.reverse
  | [], KwMode.bdry _ _ => []
  | c :: rest, KwMode.scan =>
    if jsSpace c then kwStep rest (KwMode.ws [c]) else c :: kwStep rest KwMode.scan
  | c :: rest, KwMode.ws bufRev =>
    if jsSpace c then kwStep rest (KwMode.ws (c :: bufRev))
    else if c = '#' then kwStep rest (KwMode.hash bufRev)
    else bufRev.reverse ++ c :: kwStep rest KwMode.scan
  | c :: rest, KwMode.hash wsRev =>
    match statusKwTail c with
    | some kwRem => kwStep rest (KwMode.kw wsRev [c] kwRem)
    | none =>
      if jsSpace c then (wsRev.reverse ++ ['#']) ++ kwStep rest (KwMode.ws [c])
      else (wsRev.reverse ++ ['#']) ++ c :: kwStep rest KwMode.scan
  | c :: rest, KwMode.kw wsRev origRev kwRem =>
    match kwRem with
    | [] => [] -- unreachable: `kwRem` is never set empty
    | k :: krest =>
      if c.toLower = k then
        if krest = [] then kwStep rest (KwMode.bdry wsRev (c :: origRev))
        else kwStep rest (KwMode.kw wsRev (c :: origRev) krest)
      else if jsSpace c then
        (wsRev.reverse ++ '#' :: origRev.reverse) ++ kwStep rest (KwMode.ws [c])
      else (wsRev.reverse ++ '#' :: origRev.reverse) ++ c :: kwStep rest KwMode.scan
  | c :: rest, KwMode.bdry wsRev origRev =>
    if wordChar c then (wsRev.reverse ++ '#' :: origRev.reverse) ++ c :: kwStep rest KwMode.scan
    else if jsSpace c then kwStep rest (KwMode.ws [c])
    else c :: kwStep rest KwMode.scan

def removeStatusKw (s : Str) : Str := kwStep s KwMode.scan

/-! ### Metadata maps

`const meta: Record<string, string> = {}` with later assignments
overwriting, modelled as a lookup function. -/

def Meta := Str → Option Str

def emptyMeta : Meta := fun _ => none

def setMeta (m : Meta) (k v : Str) : Meta :=
  fun k' => if k' = k then some v else m k'

def lcStr (s : Str) : Str := s.map Char.toLower

/-- `/^\s{2,}([A-Za-z0-9_-]+)::\s*(.*)$/` — at least two whitespace
characters, a key, `::`, optional whitespace, and a `\r`-free remainder
(the end anchor again rejects a stray `\r`). -/
def fieldMatch (line : Str) : Option (Str × Str) :=
  if (line.takeWhile jsSpace).length < 2 then none
  else
    let s1 := line.dropWhile jsSpace
    let key := s1.takeWhile keyChar
    if key = [] then none
    else
      match s1.dropWhile keyChar with
      | ':' :: ':' :: s2 =>
        let value := s2.dropWhile jsSpace
        if value.contains '\r' || value.contains '\n' then none else some (key, value)
      | _ => none

/-- `/^\s{2,}-\s+/.test(metaLine)` (description bullet of the first
`parseTasks`). -/
def bulletTest (line : Str) : Bool :=
  2 ≤ (line.takeWhile jsSpace).length &&
  match line.dropWhile jsSpace with
  | '-' :: r => !(r.takeWhile jsSpace).isEmpty
  | _ => false

/-- `/^\s{2,}-\s+[A-Za-z0-9]/.test(l)` (description bullet of the second
`parseTasks` and of `parseTasksFromContent`). -/
def bulletTestAN (line : Str) : Bool :=
  2 ≤ (line.takeWhile jsSpace).length &&
  match line.dropWhile jsSpace with
  | '-' :: r =>
    !(r.takeWhile jsSpace).isEmpty &&
    (match r.dropWhile jsSpace with
     | c :: _ => c.isAlpha || c.isDigit
     | [] => false)
  | _ => false

/-- `metaLine.replace(/^\s{2,}-\s*/, "")`: strip the matched prefix when the
anchored pattern matches, otherwise leave the line unchanged. -/
def bulletStrip (line : Str) : Str :=
  if 2 ≤ (line.takeWhile jsSpace).length then
    match line.dropWhile jsSpace with
    | '-' :: r => r.dropWhile jsSpace
    | _ => line
  else line

/-- Append `d` to the running description:
`meta["description"] ? meta["description"] + "\n" + d : d`. -/
def descAppend (m : Meta) (d : Str) : Str :=
  match m (strL "description") with
  | some old => if old ≠ [] then old ++ '\n' :: d else d
  | none => d

/-- Inner metadata loop of the first `parseTasks` (part_001 lines 83-102):
returns the final map, the number of consumed lines, and the unconsumed
remainder. -/
def metaLoop1 : List Str → Meta → Meta × Nat × List Str
  | [], m => (m, 0, [])
  | l :: ls, m =>
    match fieldMatch l with
    | some (k, v) =>
      let r := metaLoop1 ls (setMeta m (lcStr k) (trimStr v))
      (r.1, r.2.1 + 1, r.2.2)
    | none =>
      if bulletTest l then
        let r := metaLoop1 ls (setMeta m (strL "description") (descAppend m (bulletStrip l)))
        (r.1, r.2.1 + 1, r.2.2)
      else (m, 0, l :: ls)

/-- Inner metadata loop of the second `parseTasks` (part_001 lines
208-220): field values are not trimmed, and the bullet fallback requires an
alphanumeric after the dash. -/
def metaLoop2 : List Str → Meta → Meta × Nat × List Str
  | [], m => (m, 0, [])
  | l :: ls, m =>
    match fieldMatch l with
    | some (k, v) =>
      let r := metaLoop2 ls (setMeta m (lcStr k) v)
      (r.1, r.2.1 + 1, r.2.2)
    | none =>
      if bulletTestAN l then
        let r := metaLoop2 ls (setMeta m (strL "description") (descAppend m (bulletStrip l)))
        (r.1, r.2.1 + 1, r.2.2)
      else (m, 0, l :: ls)

/-- A line the first parser's metadata loop consumes. -/
def isMetaLine1 (l : Str) : Bool := (fieldMatch l).isSome || bulletTest l

/-! ### Task records -/

/-- The `QTTask` interface of part_001.  The `priority` field is populated
by `meta["priority"] as Priority | undefined`, a compile-time cast that at
run time leaves the raw metadata string in place, so it is modelled as an
optional string. -/
structure QTTask where
  startLine : Nat
  endLine : Nat
  checkbox : Str
  title : Str
  description : Option Str
  created : Option Str
  due : Option Str
  tags : List Str
  priority : Option Str
  status : Status
  raw : Str
deriving DecidableEq, Repr

def untitledPlaceholder : Str := strL "<untitled task>"

/-- Title extraction shared by both part_001 parsers:
`rest.replace(/#([A-Za-z0-9/_-]+)/g, "").replace(/🔺|⏫|⏬/g, "")
     .replace(/\s+#(todo|in-progress|done|cancelled)\b/gi, "").trim()`. -/
def titleCandidate (rest : Str) : Str :=
  trimStr (removeStatusKw (removeEmojis (removeTags rest)))

/-- Outer loop of the first `parseTasks` (part_001 lines 51-119).  The
source advances `i` to just past the consumed block (`i = j - 1` before the
`i++`); the fuel argument decreases once per iteration of the `for` loop
and `lines.length` iterations always suffice. -/
def parseLoop1 : Nat → List Str → Nat → List QTTask
  | _, [], _ => []
  | 0, _ :: _, _ => []
  | fuel + 1, line :: restLines, i =>
    match matchChecklist line with
    | none => parseLoop1 fuel restLines (i + 1)
    | some (c, rawRest) =>
      let rest := trimStr rawRest
      let tags := dedupFirst (extractTags rest)
      let cand := titleCandidate rest
      let title := if cand ≠ [] then cand else if rest ≠ [] then rest else untitledPlaceholder
      let status := deriveStatus c rest
      let r := metaLoop1 restLines emptyMeta
      let m := r.1
      let n := r.2.1
      { startLine := i
        endLine := i + n
        checkbox := ['[', c, ']']
        title := title
        description := m (strL "description")
        created := m (strL "created")
        due := m (strL "due")
        tags := tags
        priority := m (strL "priority")
        status := status
        raw := line } :: parseLoop1 fuel r.2.2 (i + n + 1)

/-- The first `parseTasks` of part_001 (lines 47-122). -/
def parseTasks1 (content : Str) : List QTTask :=
  let lines := splitCRLF content
  parseLoop1 lines.length lines 0

/-- Outer loop of the second `parseTasks` (part_001 lines 181-238): splits
on `"\n"` only, does not deduplicate tags, has no empty-title fallback, and
uses the stricter bullet test without value trimming. -/
def parseLoop2 : Nat → List Str → Nat → List QTTask
  | _, [], _ => []
  | 0, _ :: _, _ => []
  | fuel + 1, line :: restLines, i =>
    match matchChecklist line with
    | none => parseLoop2 fuel restLines (i + 1)
    | some (c, rawRest) =>
      let rest := trimStr rawRest
      let tags := extractTags rest
      let title := titleCandidate rest
      let status := deriveStatus c rest
      let r := metaLoop2 restLines emptyMeta
      let m := r.1
      let n := r.2.1
      { startLine := i
        endLine := i + n
        checkbox := ['[', c, ']']
        title := title
        description := m (strL "description")
        created := m (strL "created")
        due := m (strL "due")
        tags := tags
        priority := m (strL "priority")
        status := status
        raw := line } :: parseLoop2 fuel r.2.2 (i + n + 1)

/-- The second `parseTasks` of part_001 (lines 177-241). -/
def parseTasks2 (content : Str) : List QTTask :=
  let lines := splitLF content
  parseLoop2 lines.length lines 0

/-! ### The serializer (`serializeTask`, part_001 lines 124-160) -/

/-- The argument type of `serializeTask`: all fields optional except the
title. -/
structure TaskPayload where
  checkbox : Option Str := none
  title : Str
  description : Option Str := none
  created : Option Str := none
  due : Option Str := none
  tags : Option (List Str) := none
  priority : Option Priority := none
  status : Option Status := none
deriving DecidableEq, Repr

def tagsPart (t : TaskPayload) : Str := joinSpace (t.tags.getD [])

def priorityEmoji (t : TaskPayload) : Str :=
  match t.priority with
  | some Priority.high => ['🔺']
  | some Priority.medium => ['⏫']
  | some Priority.low => ['⏬']
  | none => []

/-- `task.status && task.status !== "todo" ? ` + "` #${task.status}`" + ` : ""`. -/
def statusInlinePart (t : TaskPayload) : Str :=
  match t.status with
  | some st => if st ≠ Status.todo then ' ' :: '#' :: statusName st else []
  | none => []

/-- Everything of the first serialized line after `- {checkbox} `. -/
def serRest (t : TaskPayload) : Str :=
  t.title ++
  (if tagsPart t ≠ [] then ' ' :: tagsPart t else []) ++
  (if priorityEmoji t ≠ [] then ' ' :: priorityEmoji t else []) ++
  statusInlinePart t

def serFirstLine (t : TaskPayload) : Str :=
  '-' :: ' ' :: (t.checkbox.getD (strL "[ ]")) ++ ' ' :: serRest t

/-- One `  key:: value` metadata line. -/
def mkFieldLine (k v : Str) : Str := ' ' :: ' ' :: k ++ ':' :: ':' :: ' ' :: v

/-- `if (truthy) meta.push(...)` for one optional field: a JavaScript
string is truthy exactly when non-empty. -/
def optField (k : Str) (o : Option Str) : List Str :=
  match o with
  | some v => if v ≠ [] then [mkFieldLine k v] else []
  | none => []

/-- The `meta` array of `serializeTask`, pushed in source order:
created, due, priority, status, description. -/
def serMeta (t : TaskPayload) : List Str :=
  optField (strL "created") t.created ++
  optField (strL "due") t.due ++
  optField (strL "priority") (t.priority.map priorityName) ++
  optField (strL "status") (t.status.map statusName) ++
  optField (strL "description") t.description

/-- `serializeTask` of part_001 (lines 124-160):
`[firstLine, ...meta].join("\n")`. -/
def serializeTask (t : TaskPayload) : Str :=
  joinLF (serFirstLine t :: serMeta t)

/-! ### `parseTasksFromContent` (part_000, lines 64-127)

The emoji literals of part_000 are mojibake: the file stores the priority
glyphs as the byte sequences U+F8FF U+00FC U+00EE U+222B (High),
U+201A U+00E8 U+00B4 (Medium) and U+201A U+00E8 U+00A8 (Low); the code
compares against exactly those character sequences. -/

def hiGlyph : Str := strL "üî∫"

def midGlyph : Str := strL "‚è´"

def lowGlyph : Str := strL "‚è¨"

/-- `/priority[:\s]*word/i.test(s)`: after the case-insensitive
`priority`, the class `[:\s]*` is a run of colons or whitespace; the first
letter of `word` is in neither, so only the maximal run matters. -/
def prioTextTest (word : Str) (s : Str) : Bool :=
  anySuffix (fun suf =>
    match stripCI (strL "priority") suf with
    | none => false
    | some r => isPrefixCI word (r.dropWhile (fun c => c = ':' || jsSpace c))) s

/-- `/P:word/i.test(s)`. -/
def pColonTest (word : Str) (s : Str) : Bool :=
  anySuffix (isPrefixCI ('p' :: ':' :: word)) s

/-- Priority derivation of part_000 (lines 78-85): High, then Medium, then
Low; first match wins. -/
def derivePriority0 (rest : Str) : Option Priority :=
  if containsCS hiGlyph rest || prioTextTest (strL "high") rest || pColonTest (strL "high") rest then
    some Priority.high
  else if containsCS midGlyph rest || prioTextTest (strL "medium") rest || pColonTest (strL "medium") rest then
    some Priority.medium
  else if containsCS lowGlyph rest || prioTextTest (strL "low") rest || pColonTest (strL "low") rest then
    some Priority.low
  else none

/-- `rest.replace(/(#\w+)|G1|G2|G3/g, "").trim()`-style tag/glyph removal
of part_000 line 114, where G1/G2/G3 are the three mojibake glyphs.  The
`(#\w+)` alternative is tried first at each position; every step consumes
at least one character, so `s.length` fuel always suffices. -/
def rmTags0F : Nat → Str → Str
  | 0, s => s
  | _, [] => []
  | fuel + 1, c :: rest =>
    if c = '#' then
      match rest with
      | c2 :: r2 =>
        if wordChar c2 then rmTags0F fuel (r2.dropWhile wordChar)
        else '#' :: rmTags0F fuel rest
      | [] => ['#']
    else if c = '' then
      match rest with
      | 'ü' :: 'î' :: '∫' :: r => rmTags0F fuel r
      | _ => c :: rmTags0F fuel rest
    else if c = '‚' then
      match rest with
      | 'è' :: '´' :: r => rmTags0F fuel r
      | 'è' :: '¨' :: r => rmTags0F fuel r
      | _ => c :: rmTags0F fuel rest
    else c :: rmTags0F fuel rest

def rmTags0 (s : Str) : Str := rmTags0F s.length s

/-- `/^\s{2,}[A-Za-z].*/.test(l)`: at least two whitespace characters
followed by a letter. -/
def indentAlphaTest (l : Str) : Bool :=
  2 ≤ (l.takeWhile jsSpace).length &&
  match l.dropWhile jsSpace with
  | c :: _ => c.isAlpha
  | [] => false

/-- `l.trim().replace(/^-+\s*/, "")` (part_000 line 98). -/
def bulletStrip0 (l : Str) : Str :=
  let t := trimStr l
  match t with
  | '-' :: _ => (t.dropWhile (fun c => c = '-')).dropWhile jsSpace
  | _ => t

/-- Metadata-line collection of part_000 (lines 93-105): returns the
number of consumed lines, the pushed strings, and the remainder. -/
def collectMeta0 : List Str → Nat × List Str × List Str
  | [] => (0, [], [])
  | l :: ls =>
    if bulletTestAN l then
      let r := collectMeta0 ls
      (r.1 + 1, bulletStrip0 l :: r.2.1, r.2.2)
    else if indentAlphaTest l then
      let r := collectMeta0 ls
      (r.1 + 1, trimStr l :: r.2.1, r.2.2)
    else (0, [], l :: ls)

/-- `/^([A-Za-z]+)\s*[:]{1,2}\s*(.*)$/` of `parseMetaLines`. -/
def kvMatch0 (l : Str) : Option (Str × Str) :=
  let key := l.takeWhile Char.isAlpha
  if key = [] then none
  else
    match (l.dropWhile Char.isAlpha).dropWhile jsSpace with
    | ':' :: ':' :: s2 =>
      let value := s2.dropWhile jsSpace
      if value.contains '\r' || value.contains '\n' then none else some (key, value)
    | ':' :: s2 =>
      let value := s2.dropWhile jsSpace
      if value.contains '\r' || value.contains '\n' then none else some (key, value)
    | _ => none

/-- Append free text to `meta["Description"]` (part_000 line 137). -/
def descAppend0 (m : Meta) (d : Str) : Str :=
  match m (strL "Description") with
  | some old => if old ≠ [] then old ++ '\n' :: d else d
  | none => d

/-- `parseMetaLines` (part_000, lines 129-141). -/
def parseMetaLines0 : List Str → Meta → Meta
  | [], m => m
  | l :: ls, m =>
    match kvMatch0 l with
    | some (k, v) => parseMetaLines0 ls (setMeta m k v)
    | none => parseMetaLines0 ls (setMeta m (strL "Description") (descAppend0 m l))

/-- `meta["Created"] || meta["created"]`: JavaScript `||` keeps the first
operand only when it is truthy (a non-empty string). -/
def truthyOpt : Option Str → Bool
  | some v => !v.isEmpty
  | none => false

def orTruthy (a b : Option Str) : Option Str := if truthyOpt a then a else b

/-- The `QTTask` interface of part_000: `priority` is a genuine
`Priority` there, derived from the checklist line only. -/
structure QTask0 where
  rawLine : Str
  startLine : Nat
  endLine : Nat
  checkbox : Str
  title : Str
  description : Option Str
  created : Option Str
  due : Option Str
  tags : List Str
  priority : Option Priority
  status : Status
deriving DecidableEq, Repr

/-- Outer loop of `parseTasksFromContent` (part_000 lines 67-125). -/
def parseLoop0 : Nat → List Str → Nat → List QTask0
  | _, [], _ => []
  | 0, _ :: _, _ => []
  | fuel + 1, line :: restLines, i =>
    match matchChecklistNE line with
    | none => parseLoop0 fuel restLines (i + 1)
    | some (c, rawRest) =>
      let rest := trimStr rawRest
      let tags := extractTags rest
      let priority := derivePriority0 rest
      let status := deriveStatus c rest
      let r := collectMeta0 restLines
      let m := parseMetaLines0 r.2.1 emptyMeta
      { rawLine := line
        startLine := i
        endLine := i + r.1
        checkbox := ['[', c, ']']
        title := trimStr (rmTags0 rest)
        description := m (strL "Description")
        created := orTruthy (m (strL "Created")) (m (strL "created"))
        due := orTruthy (m (strL "Due")) (m (strL "due"))
        tags := tags
        priority := priority
        status := status } :: parseLoop0 fuel r.2.2 (i + r.1 + 1)

/-- `parseTasksFromContent` (part_000, lines 64-127). -/
def parseTasksFromContent (content : Str) : List QTask0 :=
  let lines := splitLF content
  parseLoop0 lines.length lines 0

/-! ## Claim theorems -/

/-- C2 counterexample: the single-line input
`- [x] Finish report #cancelled-ish in progress` parses to status
`cancelled`, not `in-progress`: the `/cancel/i` check runs after the
in-progress check and `#cancelled-ish` contains `cancel`. -/
theorem c2_counterexample :
    (parseTasks1 (strL "- [x] Finish report #cancelled-ish in progress")).map QTTask.status
      = [Status.cancelled] ∧ Status.cancelled ≠ Status.inProgress := by
  decide

/-- C2 amended: keyword overrides do win over the checkbox-derived default
(`- [x] Finish report in progress` parses to `in-progress` although the box
is checked, and without keywords the checked box yields `done`), but the
cancel check runs last, so `- [x] Finish report #cancelled-ish in progress`
parses to `cancelled`. -/
theorem c2_status_override :
    (parseTasks1 (strL "- [x] Finish report #cancelled-ish in progress")).map QTTask.status
      = [Status.cancelled] ∧
    (parseTasks1 (strL "- [x] Finish report in progress")).map QTTask.status
      = [Status.inProgress] ∧
    (parseTasks1 (strL "- [x] Finish report")).map QTTask.status = [Status.done] := by
  decide

/-- C5 counterexample: parsing `- [ ] #urgent` yields the untouched
remainder `#urgent` as the title, not the placeholder constant: the
fallback chain tries the raw remainder before the placeholder. -/
theorem c5_counterexample :
    (parseTasks1 (strL "- [ ] #urgent")).map QTTask.title = [strL "#urgent"] ∧
    strL "#urgent" ≠ untitledPlaceholder := by
  decide

/-- C5 amended: parsing `- [ ] #urgent` yields a non-empty title equal to
the untouched remainder `#urgent`; the placeholder constant is used only
when the remainder itself is empty, as for `- [ ]`. -/
theorem c5_title_fallback :
    (parseTasks1 (strL "- [ ] #urgent")).map QTTask.title = [strL "#urgent"] ∧
    strL "#urgent" ≠ [] ∧
    (parseTasks1 (strL "- [ ]")).map QTTask.title = [untitledPlaceholder] := by
  decide

/-- C7 counterexample: the checklist remainder `task P:high` carries the
textual `P:high` marker, yet the first `parseTasks` of part_001 (the
claim's cited symbol) assigns no priority at all: that parser never derives
a priority from the line. -/
theorem c7_counterexample :
    pColonTest (strL "high") (strL "task P:high") = true ∧
    (parseTasks1 (strL "- [ ] task P:high")).map QTTask.priority = [none] := by
  decide

/-- C7 amended: the High → Medium → Low first-match derivation from glyph
or textual marker exists only in `parseTasksFromContent` (part_000), where
a `priority` metadata line never overrides it; in part_001's `parseTasks`
the priority comes solely from the `priority::` metadata line, stored
without validation, with no line-derived fallback. -/
theorem c7_priority_sources :
    (parseTasksFromContent (strL "- [ ] task P:high")).map QTask0.priority
      = [some Priority.high] ∧
    (parseTasksFromContent (strL "- [ ] x P:low P:high")).map QTask0.priority
      = [some Priority.high] ∧
    (parseTasksFromContent (strL "- [ ] x P:high\n  - Priority: Low")).map QTask0.priority
      = [some Priority.high] ∧
    (parseTasks1 (strL "- [ ] task P:high")).map QTTask.priority = [none] ∧
    (parseTasks1 (strL "- [ ] t\n  priority:: High")).map QTTask.priority
      = [some (strL "High")] ∧
    (parseTasks1 (strL "- [ ] t\n  priority:: Banana")).map QTTask.priority
      = [some (strL "Banana")] := by
  decide

/-- C10 counterexample: the two `parseTasks` implementations of part_001
disagree on the single-line document `- [ ] t #a #a`. -/
theorem c10_counterexample :
    parseTasks1 (strL "- [ ] t #a #a") ≠ parseTasks2 (strL "- [ ] t #a #a") := by
  decide

/-- C10 amended: the two implementations are not extensionally equal: on
`- [ ] t #a #a` each returns a single record and the records agree on every
field except `tags`, where the first returns the deduplicated `[#a]` and
the second the duplicate-preserving `[#a, #a]`. -/
theorem c10_divergence :
    (parseTasks1 (strL "- [ ] t #a #a")).map QTTask.tags = [[strL "#a"]] ∧
    (parseTasks2 (strL "- [ ] t #a #a")).map QTTask.tags = [[strL "#a", strL "#a"]] ∧
    (parseTasks1 (strL "- [ ] t #a #a")).map (fun t => { t with tags := [] })
      = (parseTasks2 (strL "- [ ] t #a #a")).map (fun t => { t with tags := [] }) := by
  decide

/-- C4 counterexample: called with an empty title (and nothing else),
`serializeTask` signals nothing and returns the degenerate block
`- [ ] `. -/
theorem c4_counterexample :
    serializeTask { title := [] } = strL "- [ ] " := by
  decide

/-- C4 amended: `serializeTask` never validates the title: for every
payload, including one with an empty title, it silently returns the
standard block, whose first line embeds the (possibly empty) title after
`- {checkbox} `; the non-empty-title precondition is enforced only by the
modal UI, not by the serializer. -/
theorem c4_silent_emission (p : TaskPayload) :
    ∃ r, serializeTask p
      = '-' :: ' ' :: (p.checkbox.getD (strL "[ ]") ++ ' ' :: (p.title ++ r)) := by
  cases h : serMeta p with
  | nil =>
    refine ⟨(if tagsPart p ≠ [] then ' ' :: tagsPart p else []) ++
      (if priorityEmoji p ≠ [] then ' ' :: priorityEmoji p else []) ++
      statusInlinePart p, ?_⟩
    simp [serializeTask, h, joinLF, serFirstLine, serRest, List.append_assoc]
  | cons a l =>
    refine ⟨(if tagsPart p ≠ [] then ' ' :: tagsPart p else []) ++
      (if priorityEmoji p ≠ [] then ' ' :: priorityEmoji p else []) ++
      statusInlinePart p ++ '\n' :: joinLF (a :: l), ?_⟩
    simp [serializeTask, h, joinLF, serFirstLine, serRest, List.append_assoc]

/-- C8 counterexample: a payload with both a description and a created date
serializes with `  created:: c` as its first metadata line and
`  description:: d` last, not description-first as claimed. -/
theorem c8_counterexample :
    serializeTask { title := strL "t", description := some (strL "d"), created := some (strL "c") }
      = strL "- [ ] t\n  created:: c\n  description:: d" ∧
    strL "- [ ] t\n  created:: c\n  description:: d"
      ≠ strL "- [ ] t\n  description:: d\n  created:: c" := by
  decide

/-- C8 amended: `serializeTask` emits one `  key:: value` metadata line per
present *and non-empty* optional field, in the fixed source order created,
due, priority, status, description, and emits no line for an absent or
empty field. -/
theorem c8_meta_order :
    (∀ (p : TaskPayload) (c d ds : Str) (pr : Priority) (st : Status),
      p.created = some c → c ≠ [] → p.due = some d → d ≠ [] →
      p.priority = some pr → p.status = some st →
      p.description = some ds → ds ≠ [] →
      serMeta p = [mkFieldLine (strL "created") c, mkFieldLine (strL "due") d,
        mkFieldLine (strL "priority") (priorityName pr),
        mkFieldLine (strL "status") (statusName st),
        mkFieldLine (strL "description") ds]) ∧
    (∀ p : TaskPayload, p.created = none → p.due = none → p.priority = none →
      p.status = none → p.description = none → serMeta p = []) := by
  constructor
  · intro p c d ds pr st hc hc0 hd hd0 hp hs hds hds0
    have hpr : priorityName pr ≠ [] := by cases pr <;> decide
    have hst : statusName st ≠ [] := by cases st <;> decide
    simp [serMeta, hc, hd, hp, hs, hds, optField, hc0, hd0, hds0, hpr, hst]
  · intro p hc hd hp hs hds
    simp [serMeta, hc, hd, hp, hs, hds, optField]

/-- C6 counterexample: in `- [ ] a` followed by `  hello`, the second line
is indented by two spaces yet is not consumed (it matches neither metadata
shape), so `endLine` stays 0 where the claim requires 1. -/
theorem c6_counterexample :
    2 ≤ (((splitCRLF (strL "- [ ] a\n  hello")).getD 1 []).takeWhile jsSpace).length ∧
    (parseTasks1 (strL "- [ ] a\n  hello")).map (fun t => (t.startLine, t.endLine))
      = [(0, 0)] := by
  decide

/-! ## Machinery for the parse-loop invariants -/

/-- The trimmed checklist remainder of a raw line (what both part_001
parsers call `rest`), or `[]` when the line is no checklist line. -/
def lineRestOf (l : Str) : Str :=
  match matchChecklist l with
  | some r => trimStr r.2
  | none => []

theorem metaLoop1_count (ls : List Str) (m : Meta) :
    (metaLoop1 ls m).2.1 = (ls.takeWhile isMetaLine1).length ∧
    (metaLoop1 ls m).2.2 = ls.drop (ls.takeWhile isMetaLine1).length := by
  induction ls generalizing m with
  | nil => simp [metaLoop1]
  | cons l ls ih =>
    rcases hf : fieldMatch l with _ | ⟨k, v⟩
    · by_cases hb : bulletTest l = true
      · have hm : isMetaLine1 l = true := by simp [isMetaLine1, hf, hb]
        simp [metaLoop1, hf, hb, hm, List.takeWhile_cons, ih]
      · have hm : isMetaLine1 l = false := by
          simp [isMetaLine1, hf]
          exact Bool.not_eq_true _ ▸ (by simpa using hb)
        simp [metaLoop1, hf, hb, hm, List.takeWhile_cons]
    · have hm : isMetaLine1 l = true := by simp [isMetaLine1, hf]
      simp [metaLoop1, hf, hm, List.takeWhile_cons, ih]

theorem dedupAux_mem (l : List Str) :
    ∀ (seen : List Str) (x : Str), x ∈ dedupAux l seen ↔ x ∈ l ∧ x ∉ seen := by
  induction l with
  | nil => intro seen x; simp [dedupAux]
  | cons y l ih =>
    intro seen x
    by_cases hy : y ∈ seen
    · rw [dedupAux, if_pos hy, ih]
      constructor
      · rintro ⟨hx, hxs⟩
        exact ⟨List.mem_cons_of_mem _ hx, hxs⟩
      · rintro ⟨hx, hxs⟩
        rcases List.mem_cons.mp hx with rfl | hx
        · exact absurd hy hxs
        · exact ⟨hx, hxs⟩
    · rw [dedupAux, if_neg hy]
      constructor
      · intro hx
        rcases List.mem_cons.mp hx with rfl | hx
        · exact ⟨List.mem_cons_self _ _, hy⟩
        · have := (ih _ _).mp hx
          refine ⟨List.mem_cons_of_mem _ this.1, fun hs => this.2 ?_⟩
          exact List.mem_cons_of_mem _ hs
      · rintro ⟨hx, hxs⟩
        rcases List.mem_cons.mp hx with rfl | hx
        · exact List.mem_cons_self _ _
        · by_cases hxy : x = y
          · subst hxy; exact List.mem_cons_self _ _
          · refine List.mem_cons_of_mem _ ((ih _ _).mpr ⟨hx, ?_⟩)
            intro hs
            rcases List.mem_cons.mp hs with h | h
            · exact hxy h
            · exact hxs h

theorem dedupAux_nodup (l : List Str) : ∀ seen : List Str, (dedupAux l seen).Nodup := by
  induction l with
  | nil => intro seen; simp [dedupAux]
  | cons y l ih =>
    intro seen
    by_cases hy : y ∈ seen
    · rw [dedupAux, if_pos hy]; exact ih seen
    · rw [dedupAux, if_neg hy]
      rw [List.nodup_cons]
      refine ⟨fun hmem => ?_, ih _⟩
      exact ((dedupAux_mem l _ y).mp hmem).2 (List.mem_cons_self _ _)

theorem dedupAux_sublist (l : List Str) : ∀ seen : List Str, (dedupAux l seen).Sublist l := by
  induction l with
  | nil => intro seen; simp [dedupAux]
  | cons y l ih =>
    intro seen
    by_cases hy : y ∈ seen
    · rw [dedupAux, if_pos hy]; exact (ih seen).cons y
    · rw [dedupAux, if_neg hy]; exact (ih (y :: seen)).cons₂ y

theorem dedupFirst_mem (l : List Str) (x : Str) : x ∈ dedupFirst l ↔ x ∈ l := by
  rw [dedupFirst, dedupAux_mem]
  simp

theorem dedupFirst_nodup (l : List Str) : (dedupFirst l).Nodup := dedupAux_nodup l []

theorem dedupFirst_sublist (l : List Str) : (dedupFirst l).Sublist l := dedupAux_sublist l []

/-- Everything the outer loop of the first `parseTasks` guarantees per
produced record, plus strict ordering of the records. -/
theorem parseLoop1_inv (fuel : Nat) (allLines : List Str) :
    ∀ i : Nat,
      (∀ t ∈ parseLoop1 fuel (allLines.drop i) i,
        i ≤ t.startLine ∧ t.startLine ≤ t.endLine ∧
        t.endLine = t.startLine
          + ((allLines.drop (t.startLine + 1)).takeWhile isMetaLine1).length ∧
        t.tags = dedupFirst (extractTags (lineRestOf t.raw))) ∧
      List.Pairwise (fun a b => a.endLine < b.startLine)
        (parseLoop1 fuel (allLines.drop i) i) := by
  induction fuel with
  | zero =>
    intro i
    cases h : allLines.drop i with
    | nil => simp [parseLoop1]
    | cons line rest => simp [parseLoop1]
  | succ fuel ih =>
    intro i
    cases h : allLines.drop i with
    | nil => simp [parseLoop1]
    | cons line rest =>
      have hrest : allLines.drop (i + 1) = rest := by
        rw [← List.tail_drop, h, List.tail_cons]
      rcases hm : matchChecklist line with _ | ⟨c, rawRest⟩
      · have hrec := ih (i + 1)
        rw [hrest] at hrec
        simp only [parseLoop1, hm]
        refine ⟨fun t ht => ?_, hrec.2⟩
        have := hrec.1 t ht
        exact ⟨by omega, this.2⟩
      · have hcount := metaLoop1_count rest emptyMeta
        have hdrop : rest.drop (rest.takeWhile isMetaLine1).length
            = allLines.drop (i + (rest.takeWhile isMetaLine1).length + 1) := by
          rw [← hrest, List.drop_drop]
          congr 1
          omega
        have hrec := ih (i + (rest.takeWhile isMetaLine1).length + 1)
        simp only [parseLoop1, hm, hcount.1, hcount.2, hdrop]
        constructor
        · intro t ht
          rcases List.mem_cons.mp ht with rfl | ht
          · refine ⟨Nat.le_refl _, by simp, ?_, ?_⟩
            · simp [hrest]
            · simp [lineRestOf, hm]
          · have := hrec.1 t ht
            refine ⟨by omega, this.2⟩
        · rw [List.pairwise_cons]
          refine ⟨fun t' ht' => ?_, hrec.2⟩
          have := (hrec.1 t' ht').1
          dsimp only
          omega

/-- C3: within one parse pass of the first `parseTasks`, every record has
`startLine ≤ endLine` and the records' line ranges are pairwise disjoint
and strictly increasing in document order (each record's `endLine` is below
every later record's `startLine`, in particular its successor's). -/
theorem c3_line_ranges (content : Str) :
    (∀ t ∈ parseTasks1 content, t.startLine ≤ t.endLine) ∧
    List.Pairwise (fun a b => a.endLine < b.startLine) (parseTasks1 content) := by
  have h := parseLoop1_inv (splitCRLF content).length (splitCRLF content) 0
  rw [List.drop_zero] at h
  exact ⟨fun t ht => (h.1 t ht).2.1, h.2⟩

/-- C6 amended: metadata consumption starts right after the checklist line
and `endLine = startLine + k` where `k` is the length of the longest run of
immediately following lines matching one of the two metadata shapes
(inline `key:: value` field or `- ` bullet); the block stops at the first
line matching neither — including blank, dedented, or *indented plain*
lines, which the claim's "every line indented by at least two spaces"
wrongly includes.  Every consumed line does start with at least two
whitespace characters. -/
theorem c6_meta_block (content : Str) :
    (∀ t ∈ parseTasks1 content,
        t.endLine = t.startLine
          + (((splitCRLF content).drop (t.startLine + 1)).takeWhile isMetaLine1).length) ∧
    (∀ l : Str, isMetaLine1 l = true → 2 ≤ (l.takeWhile jsSpace).length) := by
  constructor
  · intro t ht
    have h := parseLoop1_inv (splitCRLF content).length (splitCRLF content) 0
    rw [List.drop_zero] at h
    exact (h.1 t ht).2.2.1
  · intro l hl
    have h2 : (fieldMatch l).isSome = true ∨ bulletTest l = true := by
      simpa [isMetaLine1, Bool.or_eq_true] using hl
    rcases h2 with h2 | h2
    · by_contra hlt
      push_neg at hlt
      have hnone : fieldMatch l = none := by
        unfold fieldMatch
        rw [if_pos (by omega)]
      rw [hnone] at h2
      simp at h2
    · have := h2
      unfold bulletTest at this
      rw [Bool.and_eq_true] at this
      simpa using this.1

/-- C9: tag extraction on `- [ ] Buy milk #home #home #errand` yields
exactly `[#home, #errand]`; in general every parsed record's tag list is
duplicate-free, is a subsequence (first-seen order preserved) of the raw
scan of `#`-tokens over the checklist remainder, and contains exactly the
tokens that scan collects. -/
theorem c9_tag_extraction :
    (parseTasks1 (strL "- [ ] Buy milk #home #home #errand")).map QTTask.tags
      = [[strL "#home", strL "#errand"]] ∧
    ∀ content : Str, ∀ t ∈ parseTasks1 content,
      t.tags.Nodup ∧ t.tags.Sublist (extractTags (lineRestOf t.raw)) ∧
      ∀ x : Str, x ∈ t.tags ↔ x ∈ extractTags (lineRestOf t.raw) := by
  constructor
  · decide
  · intro content t ht
    have h := parseLoop1_inv (splitCRLF content).length (splitCRLF content) 0
    rw [List.drop_zero] at h
    have htags := (h.1 t ht).2.2.2
    rw [htags]
    exact ⟨dedupFirst_nodup _, dedupFirst_sublist _, fun x => dedupFirst_mem _ x⟩

/-! ## Machinery for the round-trip theorem: characters and trimming -/

theorem jsSpace_cases (c : Char) (h : jsSpace c = true) :
    c = ' ' ∨ c = '\t' ∨ c = '\n' ∨ c = '\r' ∨ c = '\x0b' ∨ c = '\x0c' := by
  simpa [jsSpace, Bool.or_eq_true, decide_eq_true_eq, or_assoc] using h

theorem tagChar_not_space (c : Char) (h : tagChar c = true) : jsSpace c = false := by
  cases hj : jsSpace c with
  | false => rfl
  | true =>
    exfalso
    rcases jsSpace_cases c hj with rfl | rfl | rfl | rfl | rfl | rfl <;>
      exact absurd h (by decide)

theorem tagChar_ne_hash (c : Char) (h : tagChar c = true) : c ≠ '#' := by
  intro hc
  subst hc
  exact absurd h (by decide)

theorem tagChar_ne_break (c : Char) (h : tagChar c = true) : ¬(c = '\n' ∨ c = '\r') := by
  rintro (hc | hc) <;> subst hc <;> exact absurd h (by decide)

theorem keyChar_not_space (c : Char) (h : keyChar c = true) : jsSpace c = false := by
  cases hj : jsSpace c with
  | false => rfl
  | true =>
    exfalso
    rcases jsSpace_cases c hj with rfl | rfl | rfl | rfl | rfl | rfl <;>
      exact absurd h (by decide)

theorem jsSpace_ne_hash (c : Char) (h : jsSpace c = true) : c ≠ '#' := by
  rcases jsSpace_cases c h with rfl | rfl | rfl | rfl | rfl | rfl <;> decide

theorem dropWhile_append_all {p : Char → Bool} (xs ys : Str) (h : ∀ c ∈ xs, p c = true) :
    (xs ++ ys).dropWhile p = ys.dropWhile p := by
  induction xs with
  | nil => rfl
  | cons c xs ih =>
    rw [List.cons_append, List.dropWhile_cons, if_pos (h c (List.mem_cons_self _ _))]
    exact ih fun d hd => h d (List.mem_cons_of_mem _ hd)

theorem dropWhile_cons_of_neg {p : Char → Bool} (c : Char) (s : Str) (h : p c = false) :
    (c :: s).dropWhile p = c :: s := by
  rw [List.dropWhile_cons, if_neg (by simp [h])]

theorem dropWhile_eq_self_of_head {p : Char → Bool} (s : Str)
    (h : ∀ c, s.head? = some c → p c = false) : s.dropWhile p = s := by
  cases s with
  | nil => rfl
  | cons c cs => exact dropWhile_cons_of_neg c cs (h c rfl)

theorem takeWhile_append_stop {p : Char → Bool} (xs : Str) (c : Char) (ys : Str)
    (hall : ∀ d ∈ xs, p d = true) (hc : p c = false) :
    (xs ++ c :: ys).takeWhile p = xs := by
  induction xs with
  | nil => rw [List.nil_append, List.takeWhile_cons, if_neg (by simp [hc])]
  | cons d xs ih =>
    rw [List.cons_append, List.takeWhile_cons, if_pos (hall d (List.mem_cons_self _ _)),
      ih fun e he => hall e (List.mem_cons_of_mem _ he)]

theorem trimStr_eq_self (s : Str)
    (h1 : ∀ c, s.head? = some c → jsSpace c = false)
    (h2 : ∀ c, s.getLast? = some c → jsSpace c = false) : trimStr s = s := by
  unfold trimStr
  rw [dropWhile_eq_self_of_head s h1,
    dropWhile_eq_self_of_head s.reverse fun c hc => h2 c (by rwa [List.head?_reverse] at hc),
    List.reverse_reverse]

theorem trimStr_append_ws (T W : Str) (hT : T ≠ [])
    (h1 : ∀ c, T.head? = some c → jsSpace c = false)
    (h2 : ∀ c, T.getLast? = some c → jsSpace c = false)
    (hW : ∀ c ∈ W, jsSpace c = true) : trimStr (T ++ W) = T := by
  unfold trimStr
  have hh : (T ++ W).dropWhile jsSpace = T ++ W := by
    apply dropWhile_eq_self_of_head
    intro c hc
    cases T with
    | nil => exact absurd rfl hT
    | cons t ts =>
      rw [List.cons_append] at hc
      simp only [List.head?_cons, Option.some.injEq] at hc
      exact hc ▸ h1 t rfl
  rw [hh, List.reverse_append,
    dropWhile_append_all W.reverse T.reverse fun c hc => hW c (List.mem_reverse.mp hc),
    dropWhile_eq_self_of_head T.reverse fun c hc => h2 c (by rwa [List.head?_reverse] at hc),
    List.reverse_reverse]

/-! ## Splitting a joined block back into its lines -/

theorem splitLF_no_lf (s : Str) (h : '\n' ∉ s) : splitLF s = [s] := by
  induction s with
  | nil => rfl
  | cons c cs ih =>
    have hc : c ≠ '\n' := fun hce => h (hce ▸ List.mem_cons_self _ _)
    rw [splitLF, if_neg hc, ih fun hd => h (List.mem_cons_of_mem _ hd)]

theorem splitLF_append_newline (a t : Str) (h : '\n' ∉ a) :
    splitLF (a ++ '\n' :: t) = a :: splitLF t := by
  induction a with
  | nil => rw [List.nil_append, splitLF, if_pos rfl]
  | cons c cs ih =>
    have hc : c ≠ '\n' := fun hce => h (hce ▸ List.mem_cons_self _ _)
    rw [List.cons_append, splitLF, if_neg hc, ih fun hd => h (List.mem_cons_of_mem _ hd)]

theorem splitLF_joinLF (ls : List Str) (hne : ls ≠ []) (h : ∀ l ∈ ls, '\n' ∉ l) :
    splitLF (joinLF ls) = ls := by
  induction ls with
  | nil => exact absurd rfl hne
  | cons a ls ih =>
    cases ls with
    | nil => exact splitLF_no_lf a (h a (List.mem_cons_self _ _))
    | cons b ls' =>
      rw [joinLF, splitLF_append_newline a _ (h a (List.mem_cons_self _ _)),
        ih (by simp) fun l hl => h l (List.mem_cons_of_mem _ hl)]

theorem dropTrailCR_eq_self (l : Str) (h : '\r' ∉ l) : dropTrailCR l = l := by
  unfold dropTrailCR
  rw [if_neg]
  intro hc
  exact h (List.mem_of_getLast?_eq_some hc)

theorem dropCRInit_id (ls : List Str) (h : ∀ l ∈ ls, '\r' ∉ l) : dropCRInit ls = ls := by
  induction ls with
  | nil => rfl
  | cons a ls ih =>
    cases ls with
    | nil => rfl
    | cons b ls' =>
      rw [dropCRInit, dropTrailCR_eq_self a (h a (List.mem_cons_self _ _)),
        ih fun l hl => h l (List.mem_cons_of_mem _ hl)]

theorem splitCRLF_joinLF (ls : List Str) (hne : ls ≠ [])
    (h : ∀ l ∈ ls, ∀ c ∈ l, ¬(c = '\n' ∨ c = '\r')) :
    splitCRLF (joinLF ls) = ls := by
  unfold splitCRLF
  rw [splitLF_joinLF ls hne fun l hl hc => h l hl '\n' hc (Or.inl rfl)]
  exact dropCRInit_id ls fun l hl hr => h l hl '\r' hr (Or.inr rfl)

/-! ## Tag-scanner lemmas -/

/-- A well-formed serialized tag token: `#` followed by a non-empty run of
tag characters. -/
def cleanTagB (t : Str) : Bool :=
  match t with
  | c :: body => c = '#' && !body.isEmpty && body.all tagChar
  | [] => false

/-- The head of the following text can neither extend nor start a tag
match. -/
def headSafeB (s : Str) : Bool :=
  match s with
  | [] => true
  | c :: _ => !tagChar c && c ≠ '#'

theorem headSafeB_space (s : Str) : headSafeB (' ' :: s) = true := rfl

theorem headSafeB_cons (c : Char) (s : Str) (h : headSafeB (c :: s) = true) :
    tagChar c = false ∧ c ≠ '#' := by
  simpa [headSafeB, Bool.and_eq_true, decide_eq_true_eq] using h

theorem cleanTagB_spec (t : Str) (h : cleanTagB t = true) :
    ∃ body, t = '#' :: body ∧ body ≠ [] ∧ ∀ c ∈ body, tagChar c = true := by
  cases t with
  | nil => exact absurd h (by decide)
  | cons c body =>
    have h' : c = '#' ∧ body ≠ [] ∧ ∀ d ∈ body, tagChar d = true := by
      simpa [cleanTagB, Bool.and_eq_true, decide_eq_true_eq, List.all_eq_true,
        List.isEmpty_iff, and_assoc] using h
    exact ⟨body, by rw [h'.1], h'.2.1, h'.2.2⟩

theorem tagStep_scan_skip (xs ys : Str) (h : ∀ c ∈ xs, c ≠ '#') :
    tagStep (xs ++ ys) TagMode.scan = tagStep ys TagMode.scan := by
  induction xs with
  | nil => rfl
  | cons c xs ih =>
    rw [List.cons_append, tagStep, if_neg (h c (List.mem_cons_self _ _))]
    exact ih fun d hd => h d (List.mem_cons_of_mem _ hd)

theorem tagStep_scan_cons_safe (c : Char) (s : Str) (h2 : c ≠ '#') :
    tagStep (c :: s) TagMode.scan = tagStep s TagMode.scan := by
  rw [tagStep, if_neg h2]

theorem tagStep_body_all (body : Str) (X : Str)
    (hb : ∀ c ∈ body, tagChar c = true) (hX : headSafeB X = true) :
    ∀ acc : Str, tagStep (body ++ X) (TagMode.body acc)
      = ('#' :: (acc.reverse ++ body)) :: tagStep X TagMode.scan := by
  induction body with
  | nil =>
    intro acc
    rw [List.nil_append, List.append_nil]
    cases X with
    | nil => rfl
    | cons c xs =>
      have hc := headSafeB_cons c xs hX
      simp [tagStep, hc.1, hc.2]
  | cons b body ih =>
    intro acc
    have hbb := hb b (List.mem_cons_self _ _)
    rw [List.cons_append, tagStep, if_pos hbb,
      ih (fun d hd => hb d (List.mem_cons_of_mem _ hd)) (b :: acc)]
    simp [List.append_assoc]

theorem tagStep_consume (t X : Str) (ht : cleanTagB t = true) (hX : headSafeB X = true) :
    tagStep (t ++ X) TagMode.scan = t :: tagStep X TagMode.scan := by
  obtain ⟨body, rfl, hne, hall⟩ := cleanTagB_spec t ht
  cases body with
  | nil => exact absurd rfl hne
  | cons b bs =>
    rw [List.cons_append, tagStep, if_pos rfl, List.cons_append, tagStep,
      if_pos (hall b (List.mem_cons_self _ _)),
      tagStep_body_all bs X (fun d hd => hall d (List.mem_cons_of_mem _ hd)) hX [b]]
    rfl

theorem tagStep_joinSpace (L : List Str) (X : Str)
    (hL : ∀ t ∈ L, cleanTagB t = true) (hX : headSafeB X = true) :
    tagStep (joinSpace L ++ X) TagMode.scan = L ++ tagStep X TagMode.scan := by
  induction L with
  | nil => rfl
  | cons t L ih =>
    cases L with
    | nil =>
      rw [joinSpace]
      exact tagStep_consume t X (hL t (List.mem_cons_self _ _)) hX
    | cons t2 L' =>
      rw [joinSpace, List.append_assoc, List.cons_append,
        tagStep_consume t _ (hL t (List.mem_cons_self _ _)) (headSafeB_space _),
        tagStep_scan_cons_safe ' ' _ (by decide),
        ih fun u hu => hL u (List.mem_cons_of_mem _ hu)]
      simp

/-! ## Tag-removal lemmas -/

theorem rmStep_scan_skip (xs ys : Str) (h : ∀ c ∈ xs, c ≠ '#') :
    rmStep (xs ++ ys) RmMode.scan = xs ++ rmStep ys RmMode.scan := by
  induction xs with
  | nil => rfl
  | cons c xs ih =>
    rw [List.cons_append, rmStep, if_neg (h c (List.mem_cons_self _ _)),
      ih fun d hd => h d (List.mem_cons_of_mem _ hd), List.cons_append]

theorem rmStep_scan_cons_safe (c : Char) (s : Str) (h2 : c ≠ '#') :
    rmStep (c :: s) RmMode.scan = c :: rmStep s RmMode.scan := by
  rw [rmStep, if_neg h2]

theorem rmStep_body_all (body : Str) (X : Str)
    (hb : ∀ c ∈ body, tagChar c = true) (hX : headSafeB X = true) :
    rmStep (body ++ X) RmMode.body = rmStep X RmMode.scan := by
  induction body with
  | nil =>
    rw [List.nil_append]
    cases X with
    | nil => rfl
    | cons c xs =>
      have hc := headSafeB_cons c xs hX
      simp [rmStep, hc.1, hc.2]
  | cons b body ih =>
    rw [List.cons_append, rmStep, if_pos (hb b (List.mem_cons_self _ _)),
      ih fun d hd => hb d (List.mem_cons_of_mem _ hd)]

theorem rmStep_consume (t X : Str) (ht : cleanTagB t = true) (hX : headSafeB X = true) :
    rmStep (t ++ X) RmMode.scan = rmStep X RmMode.scan := by
  obtain ⟨body, rfl, hne, hall⟩ := cleanTagB_spec t ht
  cases body with
  | nil => exact absurd rfl hne
  | cons b bs =>
    rw [List.cons_append, rmStep, if_pos rfl, List.cons_append, rmStep,
      if_pos (hall b (List.mem_cons_self _ _)),
      rmStep_body_all bs X (fun d hd => hall d (List.mem_cons_of_mem _ hd)) hX]

theorem rmStep_joinSpace (L : List Str) (X : Str)
    (hL : ∀ t ∈ L, cleanTagB t = true) (hX : headSafeB X = true) :
    ∃ W : Str, rmStep (joinSpace L ++ X) RmMode.scan = W ++ rmStep X RmMode.scan ∧
      ∀ c ∈ W, jsSpace c = true := by
  induction L with
  | nil => exact ⟨[], rfl, by simp⟩
  | cons t L ih =>
    cases L with
    | nil =>
      rw [joinSpace]
      exact ⟨[], rmStep_consume t X (hL t (List.mem_cons_self _ _)) hX, by simp⟩
    | cons t2 L' =>
      obtain ⟨W, hW, hWs⟩ := ih fun u hu => hL u (List.mem_cons_of_mem _ hu)
      refine ⟨' ' :: W, ?_, ?_⟩
      · rw [joinSpace, List.append_assoc, List.cons_append,
          rmStep_consume t _ (hL t (List.mem_cons_self _ _)) (headSafeB_space _),
          rmStep_scan_cons_safe ' ' _ (by decide), hW, List.cons_append]
      · intro c hc
        rcases List.mem_cons.mp hc with rfl | hc
        · decide
        · exact hWs c hc

/-! ## Status-keyword removal on hash-free text -/

theorem kwStep_no_hash (s : Str) (h : '#' ∉ s) :
    kwStep s KwMode.scan = s ∧ ∀ buf : Str, kwStep s (KwMode.ws buf) = buf.reverse ++ s := by
  induction s with
  | nil => exact ⟨rfl, fun buf => by rw [kwStep, List.append_nil]⟩
  | cons c cs ih =>
    have hc : c ≠ '#' := fun hce => h (hce ▸ List.mem_cons_self _ _)
    have ihs := ih fun hd => h (List.mem_cons_of_mem _ hd)
    constructor
    · rw [kwStep]
      by_cases hsp : jsSpace c = true
      · rw [if_pos hsp, ihs.2 [c]]
        rfl
      · rw [if_neg hsp, ihs.1]
    · intro buf
      rw [kwStep]
      by_cases hsp : jsSpace c = true
      · rw [if_pos hsp, ihs.2 (c :: buf)]
        simp
      · rw [if_neg hsp, if_neg hc, ihs.1]

/-! ## Emoji removal -/

theorem removeEmojis_keep (s : Str) (h : ∀ c ∈ s, ¬(c = '🔺' ∨ c = '⏫' ∨ c = '⏬')) :
    removeEmojis s = s := by
  apply List.filter_eq_self.mpr
  intro c hc
  have := h c hc
  push_neg at this
  simp [this.1, this.2.1, this.2.2]

theorem jsSpace_not_emoji (c : Char) (h : jsSpace c = true) :
    ¬(c = '🔺' ∨ c = '⏫' ∨ c = '⏬') := by
  rcases jsSpace_cases c h with rfl | rfl | rfl | rfl | rfl | rfl <;> decide

/-! ## Metadata machinery for the round trip -/

/-- The key/value pair a present, non-empty optional field contributes. -/
def optKV (k : Str) (o : Option Str) : List (Str × Str) :=
  match o with
  | some v => if v ≠ [] then [(k, v)] else []
  | none => []

/-- All serialized key/value pairs of a payload, in source push order. -/
def presentKVs (t : TaskPayload) : List (Str × Str) :=
  optKV (strL "created") t.created ++ optKV (strL "due") t.due ++
  optKV (strL "priority") (t.priority.map priorityName) ++
  optKV (strL "status") (t.status.map statusName) ++
  optKV (strL "description") t.description

theorem optField_eq_map (k : Str) (o : Option Str) :
    optField k o = (optKV k o).map fun kv => mkFieldLine kv.1 kv.2 := by
  cases o with
  | none => rfl
  | some v =>
    by_cases hv : v = []
    · simp [optField, optKV, hv]
    · simp [optField, optKV, hv]

theorem serMeta_eq_map (t : TaskPayload) :
    serMeta t = (presentKVs t).map fun kv => mkFieldLine kv.1 kv.2 := by
  simp [serMeta, presentKVs, optField_eq_map, List.map_append]

theorem contains_eq_false_of_not_mem (v : Str) (c : Char) (h : c ∉ v) :
    v.contains c = false := by
  cases hc : v.contains c
  · rfl
  · exact absurd (List.elem_iff.mp hc) h

theorem fieldMatch_mk (k v : Str) (hk : k ≠ []) (hkc : ∀ c ∈ k, keyChar c = true)
    (hv1 : ∀ c, v.head? = some c → jsSpace c = false)
    (hv2 : ∀ c ∈ v, ¬(c = '\n' ∨ c = '\r')) :
    fieldMatch (mkFieldLine k v) = some (k, v) := by
  obtain ⟨kh, kt, rfl⟩ : ∃ kh kt, k = kh :: kt := by
    cases k with
    | nil => exact absurd rfl hk
    | cons a b => exact ⟨a, b, rfl⟩
  have hkh := hkc kh (List.mem_cons_self _ _)
  have hkhs : jsSpace kh = false := keyChar_not_space kh hkh
  have htake : ((' ' :: ' ' :: kh :: (kt ++ ':' :: ':' :: ' ' :: v)).takeWhile jsSpace)
      = [' ', ' '] := by
    rw [List.takeWhile_cons, if_pos (by decide), List.takeWhile_cons, if_pos (by decide),
      List.takeWhile_cons, if_neg (by simp [hkhs])]
  have hdropw : ((' ' :: ' ' :: kh :: (kt ++ ':' :: ':' :: ' ' :: v)).dropWhile jsSpace)
      = kh :: (kt ++ ':' :: ':' :: ' ' :: v) := by
    rw [List.dropWhile_cons, if_pos (by decide), List.dropWhile_cons, if_pos (by decide),
      dropWhile_cons_of_neg _ _ hkhs]
  have hkey : ((kh :: (kt ++ ':' :: ':' :: ' ' :: v)).takeWhile keyChar) = kh :: kt := by
    have h0 := takeWhile_append_stop (kh :: kt) ':' (':' :: ' ' :: v) hkc (by decide)
    rwa [List.cons_append] at h0
  have hkdrop : ((kh :: (kt ++ ':' :: ':' :: ' ' :: v)).dropWhile keyChar)
      = ':' :: ':' :: ' ' :: v := by
    have h0 : (((kh :: kt) ++ ':' :: ':' :: ' ' :: v).dropWhile keyChar)
        = ':' :: ':' :: ' ' :: v := by
      rw [dropWhile_append_all _ _ hkc, dropWhile_cons_of_neg _ _ (by decide)]
    rwa [List.cons_append] at h0
  have hval : ((' ' :: v).dropWhile jsSpace) = v := by
    rw [List.dropWhile_cons, if_pos (by decide)]
    exact dropWhile_eq_self_of_head v hv1
  unfold fieldMatch mkFieldLine
  simp only [List.cons_append]
  rw [htake, hdropw, hkey, hkdrop]
  rw [if_neg (by decide), if_neg (by simp)]
  simp only [hval]
  rw [if_neg]
  rw [contains_eq_false_of_not_mem v '\r' fun hm => hv2 '\r' hm (Or.inr rfl),
    contains_eq_false_of_not_mem v '\n' fun hm => hv2 '\n' hm (Or.inl rfl)]
  simp

/-- Sequential `meta[key] = value` assignments. -/
def metaFold : List (Str × Str) → Meta → Meta
  | [], m => m
  | kv :: kvs, m => metaFold kvs (setMeta m kv.1 kv.2)

theorem metaLoop1_kvs (kvs : List (Str × Str)) (m : Meta)
    (h : ∀ kv ∈ kvs, fieldMatch (mkFieldLine kv.1 kv.2) = some (kv.1, kv.2) ∧
      lcStr kv.1 = kv.1 ∧ trimStr kv.2 = kv.2) :
    metaLoop1 (kvs.map fun kv => mkFieldLine kv.1 kv.2) m = (metaFold kvs m, kvs.length, []) := by
  induction kvs generalizing m with
  | nil => rfl
  | cons kv kvs ih =>
    obtain ⟨hf, hlc, htr⟩ := h kv (List.mem_cons_self _ _)
    rw [List.map_cons, metaLoop1.eq_def]
    simp only [hf, hlc, htr]
    rw [ih (setMeta m kv.1 kv.2) fun u hu => h u (List.mem_cons_of_mem _ hu)]
    rfl

theorem metaFold_append (a b : List (Str × Str)) (m : Meta) :
    metaFold (a ++ b) m = metaFold b (metaFold a m) := by
  induction a generalizing m with
  | nil => rfl
  | cons kv a ih => rw [List.cons_append, metaFold, metaFold, ih]

theorem metaFold_optKV_other (k : Str) (o : Option Str) (m : Meta) (k' : Str) (h : k' ≠ k) :
    metaFold (optKV k o) m k' = m k' := by
  cases o with
  | none => rfl
  | some v =>
    by_cases hv : v = []
    · simp [optKV, hv, metaFold]
    · simp [optKV, hv, metaFold, setMeta, h]

theorem metaFold_optKV_same (k : Str) (v : Str) (m : Meta) (hv : v ≠ []) :
    metaFold (optKV k (some v)) m k = some v := by
  simp [optKV, hv, metaFold, setMeta]

theorem metaFold_optKV_none (k : Str) (m : Meta) : metaFold (optKV k none) m = m := rfl

/-! ## Clean payloads -/

/-- A clean title: non-empty, no surrounding whitespace, and free of `#`,
the three priority glyphs, and line terminators. -/
def cleanTitleB (T : Str) : Bool :=
  !T.isEmpty && T.head?.all (fun c => !jsSpace c) && T.getLast?.all (fun c => !jsSpace c) &&
  T.all fun c => !(c = '#' || c = '🔺' || c = '⏫' || c = '⏬' || c = '\n' || c = '\r')

/-- A clean optional metadata value: absent, or non-empty with no
surrounding whitespace and no line terminators. -/
def cleanValB (o : Option Str) : Bool :=
  match o with
  | none => true
  | some v =>
    !v.isEmpty && v.head?.all (fun c => !jsSpace c) && v.getLast?.all (fun c => !jsSpace c) &&
    v.all fun c => !(c = '\n' || c = '\r')

theorem optAll_spec {p : Char → Bool} {o : Option Char} (h : o.all p = true) :
    ∀ c, o = some c → p c = true := by
  intro c hc
  subst hc
  exact h

theorem cleanTitleB_spec (T : Str) (h : cleanTitleB T = true) :
    T ≠ [] ∧ (∀ c, T.head? = some c → jsSpace c = false) ∧
    (∀ c, T.getLast? = some c → jsSpace c = false) ∧
    ∀ c ∈ T, c ≠ '#' ∧ c ≠ '🔺' ∧ c ≠ '⏫' ∧ c ≠ '⏬' ∧ c ≠ '\n' ∧ c ≠ '\r' := by
  rw [cleanTitleB, Bool.and_eq_true, Bool.and_eq_true, Bool.and_eq_true] at h
  obtain ⟨⟨⟨hne, hh⟩, hl⟩, hall⟩ := h
  refine ⟨by simpa [List.isEmpty_iff] using hne, ?_, ?_, ?_⟩
  · intro c hc
    simpa using optAll_spec hh c hc
  · intro c hc
    simpa using optAll_spec hl c hc
  · intro c hc
    have := List.all_eq_true.mp hall c hc
    simp only [Bool.not_eq_true', Bool.or_eq_false_iff, decide_eq_false_iff_not] at this
    exact ⟨this.1.1.1.1.1, this.1.1.1.1.2, this.1.1.1.2, this.1.1.2, this.1.2, this.2⟩

theorem cleanValB_spec (v : Str) (h : cleanValB (some v) = true) :
    v ≠ [] ∧ (∀ c, v.head? = some c → jsSpace c = false) ∧
    (∀ c, v.getLast? = some c → jsSpace c = false) ∧
    ∀ c ∈ v, ¬(c = '\n' ∨ c = '\r') := by
  rw [cleanValB, Bool.and_eq_true, Bool.and_eq_true, Bool.and_eq_true] at h
  obtain ⟨⟨⟨hne, hh⟩, hl⟩, hall⟩ := h
  refine ⟨by simpa [List.isEmpty_iff] using hne, ?_, ?_, ?_⟩
  · intro c hc
    simpa using optAll_spec hh c hc
  · intro c hc
    simpa using optAll_spec hl c hc
  · intro c hc
    have := List.all_eq_true.mp hall c hc
    simp only [Bool.not_eq_true', Bool.or_eq_false_iff, decide_eq_false_iff_not] at this
    exact fun hor => hor.elim this.1 this.2

theorem cleanValB_trim (v : Str) (h : cleanValB (some v) = true) : trimStr v = v := by
  obtain ⟨_, hh, hl, _⟩ := cleanValB_spec v h
  exact trimStr_eq_self v hh hl

/-! ## joinSpace facts -/

theorem joinSpace_ne_nil (L : List Str) (hL : ∀ t ∈ L, cleanTagB t = true) (h : L ≠ []) :
    joinSpace L ≠ [] := by
  cases L with
  | nil => exact absurd rfl h
  | cons t L' =>
    obtain ⟨body, rfl, _, _⟩ := cleanTagB_spec t (hL t (List.mem_cons_self _ _))
    cases L' with
    | nil => simp [joinSpace]
    | cons t2 L'' => simp [joinSpace]

theorem getLast?_cons_ne (a : Char) (l : Str) (h : l ≠ []) :
    (a :: l).getLast? = l.getLast? := by
  cases l with
  | nil => exact absurd rfl h
  | cons b l' => rw [List.getLast?_cons_cons]

theorem joinSpace_getLast_tagChar (L : List Str) (hL : ∀ t ∈ L, cleanTagB t = true)
    (h : L ≠ []) : ∀ c, (joinSpace L).getLast? = some c → tagChar c = true := by
  induction L with
  | nil => exact absurd rfl h
  | cons t L' ih =>
    intro c hc
    cases L' with
    | nil =>
      rw [joinSpace] at hc
      obtain ⟨body, rfl, hbne, hball⟩ := cleanTagB_spec t (hL t (List.mem_cons_self _ _))
      rw [getLast?_cons_ne _ _ hbne] at hc
      exact hball c (List.mem_of_getLast?_eq_some hc)
    | cons t2 L'' =>
      rw [joinSpace] at hc
      have hne : (' ' :: joinSpace (t2 :: L'')) ≠ [] := by simp
      rw [List.getLast?_append_of_ne_nil _ hne] at hc
      have hjne : joinSpace (t2 :: L'') ≠ [] :=
        joinSpace_ne_nil _ (fun u hu => hL u (List.mem_cons_of_mem _ hu)) (by simp)
      rw [getLast?_cons_ne _ _ hjne] at hc
      exact ih (fun u hu => hL u (List.mem_cons_of_mem _ hu)) (by simp) c hc

theorem joinSpace_chars (L : List Str) (hL : ∀ t ∈ L, cleanTagB t = true) :
    ∀ c ∈ joinSpace L, c = ' ' ∨ c = '#' ∨ tagChar c = true := by
  induction L with
  | nil => intro c hc; exact absurd hc (List.not_mem_nil c)
  | cons t L' ih =>
    intro c hc
    obtain ⟨body, ht, hbne, hball⟩ := cleanTagB_spec t (hL t (List.mem_cons_self _ _))
    cases L' with
    | nil =>
      rw [joinSpace, ht] at hc
      rcases List.mem_cons.mp hc with rfl | hc
      · exact Or.inr (Or.inl rfl)
      · exact Or.inr (Or.inr (hball c hc))
    | cons t2 L'' =>
      rw [joinSpace] at hc
      rcases List.mem_append.mp hc with hc | hc
      · rw [ht] at hc
        rcases List.mem_cons.mp hc with rfl | hc
        · exact Or.inr (Or.inl rfl)
        · exact Or.inr (Or.inr (hball c hc))
      · rcases List.mem_cons.mp hc with rfl | hc
        · exact Or.inl rfl
        · exact ih (fun u hu => hL u (List.mem_cons_of_mem _ hu)) c hc

/-! ## The serialized remainder -/

/-- The optional tags part of the serialized first line. -/
def tagsExt (L : List Str) : Str := if joinSpace L ≠ [] then ' ' :: joinSpace L else []

theorem head?_append_ne (T X : Str) (h : T ≠ []) : (T ++ X).head? = T.head? := by
  cases T with
  | nil => exact absurd rfl h
  | cons a b => rfl

theorem append_assoc_cons (T : Str) (J B : Str) :
    T ++ ((' ' :: J) ++ B) = T ++ ' ' :: (J ++ B) := by
  simp

/-- Everything the parser recovers from the serialized remainder
`T ++ tagsExt L ++ B`, where `B` is the optional ` {glyph}` priority
part. -/
theorem restFacts (T : Str) (L : List Str) (B : Str)
    (hT : cleanTitleB T = true)
    (hL : ∀ t ∈ L, cleanTagB t = true)
    (hB : B = [] ∨ ∃ e, B = [' ', e] ∧ (e = '🔺' ∨ e = '⏫' ∨ e = '⏬')) :
    extractTags (T ++ (tagsExt L ++ B)) = L ∧
    titleCandidate (T ++ (tagsExt L ++ B)) = T ∧
    trimStr (T ++ (tagsExt L ++ B)) = T ++ (tagsExt L ++ B) ∧
    (∀ c ∈ T ++ (tagsExt L ++ B), ¬(c = '\n' ∨ c = '\r')) ∧
    (∀ c, (T ++ (tagsExt L ++ B)).head? = some c → jsSpace c = false) ∧
    T ++ (tagsExt L ++ B) ≠ [] := by
  obtain ⟨hTne, hTh, hTl, hTall⟩ := cleanTitleB_spec T hT
  have hTnohash : ∀ c ∈ T, c ≠ '#' := fun c hc => (hTall c hc).1
  have hTnoemoji : ∀ c ∈ T, ¬(c = '🔺' ∨ c = '⏫' ∨ c = '⏬') := by
    intro c hc
    rintro (rfl | rfl | rfl)
    · exact (hTall _ hc).2.1 rfl
    · exact (hTall _ hc).2.2.1 rfl
    · exact (hTall _ hc).2.2.2.1 rfl
  have hTnobreak : ∀ c ∈ T, ¬(c = '\n' ∨ c = '\r') := by
    intro c hc
    rintro (rfl | rfl)
    · exact (hTall _ hc).2.2.2.2.1 rfl
    · exact (hTall _ hc).2.2.2.2.2 rfl
  have hBsafe : headSafeB B = true := by
    rcases hB with rfl | ⟨e, rfl, he⟩
    · rfl
    · rfl
  have hBtag : tagStep B TagMode.scan = [] := by
    rcases hB with rfl | ⟨e, rfl, rfl | rfl | rfl⟩ <;> rfl
  have hBrm : rmStep B RmMode.scan = B := by
    rcases hB with rfl | ⟨e, rfl, rfl | rfl | rfl⟩ <;> rfl
  have hBfilter : removeEmojis B = [] ∨ removeEmojis B = [' '] := by
    rcases hB with rfl | ⟨e, rfl, rfl | rfl | rfl⟩
    · exact Or.inl rfl
    · exact Or.inr rfl
    · exact Or.inr rfl
    · exact Or.inr rfl
  have hBbreak : ∀ c ∈ B, ¬(c = '\n' ∨ c = '\r') := by
    rcases hB with rfl | ⟨e, rfl, rfl | rfl | rfl⟩ <;> decide
  have hBnohash : ∀ c ∈ B, c ≠ '#' := by
    rcases hB with rfl | ⟨e, rfl, rfl | rfl | rfl⟩ <;> decide
  by_cases hLnil : L = []
  · subst hLnil
    have hA : tagsExt [] = [] := by simp [tagsExt, joinSpace]
    rw [hA, List.nil_append]
    have hBf : removeEmojis B = [] ∨ removeEmojis B = [' '] := hBfilter
    have hBfws : ∀ c ∈ removeEmojis B, jsSpace c = true := by
      rcases hBf with hBf | hBf <;> rw [hBf] <;> intro c hc
      · exact absurd hc (List.not_mem_nil c)
      · rcases List.mem_cons.mp hc with rfl | hc
        · decide
        · exact absurd hc (List.not_mem_nil c)
    refine ⟨?_, ?_, ?_, ?_, ?_, ?_⟩
    · rw [extractTags, tagStep_scan_skip T B hTnohash, hBtag]
    · rw [titleCandidate, removeTags, rmStep_scan_skip T B hTnohash, hBrm, removeEmojis,
        List.filter_append]
      have h1 : T.filter (fun c => !(c = '🔺' || c = '⏫' || c = '⏬')) = T :=
        removeEmojis_keep T hTnoemoji
      rw [h1]
      have h2 : (T ++ B.filter fun c => !(c = '🔺' || c = '⏫' || c = '⏬')) = T ++ removeEmojis B := rfl
      rw [h2]
      have hnohash : '#' ∉ T ++ removeEmojis B := by
        intro hm
        rcases List.mem_append.mp hm with hm | hm
        · exact hTnohash _ hm rfl
        · rcases hBf with hBf | hBf <;> rw [hBf] at hm
          · exact List.not_mem_nil _ hm
          · rcases List.mem_cons.mp hm with h | h
            · exact absurd h (by decide)
            · exact List.not_mem_nil _ h
      rw [removeStatusKw, (kwStep_no_hash _ hnohash).1]
      exact trimStr_append_ws T _ hTne hTh hTl hBfws
    · apply trimStr_eq_self
      · intro c hc
        rw [head?_append_ne T B hTne] at hc
        exact hTh c hc
      · intro c hc
        rcases hB with rfl | ⟨e, rfl, he⟩
        · rw [List.append_nil] at hc
          exact hTl c hc
        · rw [List.getLast?_append_of_ne_nil _ (by simp : ([' ', e] : Str) ≠ [])] at hc
          simp only [List.getLast?_cons_cons] at hc
          have : e = c := by simpa using hc
          subst this
          rcases he with rfl | rfl | rfl <;> decide
    · intro c hc
      rcases List.mem_append.mp hc with hc | hc
      · exact hTnobreak c hc
      · exact hBbreak c hc
    · intro c hc
      rw [head?_append_ne T B hTne] at hc
      exact hTh c hc
    · cases T with
      | nil => exact absurd rfl hTne
      | cons a b => simp
  · have hJne : joinSpace L ≠ [] := joinSpace_ne_nil L hL hLnil
    have hA : tagsExt L = ' ' :: joinSpace L := by rw [tagsExt, if_pos hJne]
    rw [hA, List.cons_append]
    have hJchars := joinSpace_chars L hL
    obtain ⟨W, hW, hWs⟩ := rmStep_joinSpace L B hL hBsafe
    refine ⟨?_, ?_, ?_, ?_, ?_, ?_⟩
    · rw [extractTags, tagStep_scan_skip T _ hTnohash,
        tagStep_scan_cons_safe ' ' _ (by decide), tagStep_joinSpace L B hL hBsafe, hBtag,
        List.append_nil]
    · rw [titleCandidate, removeTags, rmStep_scan_skip T _ hTnohash,
        rmStep_scan_cons_safe ' ' _ (by decide), hW, hBrm, removeEmojis, List.filter_append]
      have h1 : T.filter (fun c => !(c = '🔺' || c = '⏫' || c = '⏬')) = T :=
        removeEmojis_keep T hTnoemoji
      rw [h1]
      have h2 : (' ' :: (W ++ B)).filter (fun c => !(c = '🔺' || c = '⏫' || c = '⏬'))
          = ' ' :: (W ++ removeEmojis B) := by
        rw [List.filter_cons_of_pos (by decide), List.filter_append]
        have hWkeep : W.filter (fun c => !(c = '🔺' || c = '⏫' || c = '⏬')) = W :=
          removeEmojis_keep W fun c hc => jsSpace_not_emoji c (hWs c hc)
        rw [hWkeep]
        rfl
      rw [h2]
      have hWSall : ∀ c ∈ ' ' :: (W ++ removeEmojis B), jsSpace c = true := by
        intro c hc
        rcases List.mem_cons.mp hc with rfl | hc
        · decide
        · rcases List.mem_append.mp hc with hc | hc
          · exact hWs c hc
          · rcases hBfilter with hBf | hBf <;> rw [hBf] at hc
            · exact absurd hc (List.not_mem_nil c)
            · rcases List.mem_cons.mp hc with rfl | hc
              · decide
              · exact absurd hc (List.not_mem_nil c)
      have hnohash : '#' ∉ T ++ ' ' :: (W ++ removeEmojis B) := by
        intro hm
        rcases List.mem_append.mp hm with hm | hm
        · exact hTnohash _ hm rfl
        · exact jsSpace_ne_hash '#' (hWSall _ hm) rfl
      rw [removeStatusKw, (kwStep_no_hash _ hnohash).1]
      exact trimStr_append_ws T _ hTne hTh hTl hWSall
    · apply trimStr_eq_self
      · intro c hc
        rw [head?_append_ne T _ hTne] at hc
        exact hTh c hc
      · intro c hc
        rw [List.getLast?_append_of_ne_nil _ (by simp : (' ' :: (joinSpace L ++ B)) ≠ [])] at hc
        rcases hB with rfl | ⟨e, rfl, he⟩
        · rw [List.append_nil, getLast?_cons_ne _ _ hJne] at hc
          exact tagChar_not_space c (joinSpace_getLast_tagChar L hL hLnil c hc)
        · rw [getLast?_cons_ne _ _ (by simp),
            List.getLast?_append_of_ne_nil _ (by simp : ([' ', e] : Str) ≠ [])] at hc
          simp only [List.getLast?_cons_cons] at hc
          have : e = c := by simpa using hc
          subst this
          rcases he with rfl | rfl | rfl <;> decide
    · intro c hc
      rcases List.mem_append.mp hc with hc | hc
      · exact hTnobreak c hc
      · rcases List.mem_cons.mp hc with rfl | hc
        · decide
        · rcases List.mem_append.mp hc with hc | hc
          · rcases hJchars c hc with rfl | rfl | htc
            · decide
            · decide
            · exact tagChar_ne_break c htc
          · exact hBbreak c hc
    · intro c hc
      rw [head?_append_ne T _ hTne] at hc
      exact hTh c hc
    · cases T with
      | nil => exact absurd rfl hTne
      | cons a b => simp

/-! ## The round trip -/

theorem optKV_mem (k : Str) (o : Option Str) (kv : Str × Str) (h : kv ∈ optKV k o) :
    kv.1 = k ∧ o = some kv.2 ∧ kv.2 ≠ [] := by
  cases o with
  | none => exact absurd h (List.not_mem_nil kv)
  | some v =>
    by_cases hv : v = []
    · rw [optKV, if_neg (by simp [hv])] at h
      exact absurd h (List.not_mem_nil kv)
    · rw [optKV, if_pos (by simp [hv])] at h
      rcases List.mem_cons.mp h with rfl | h
      · exact ⟨rfl, rfl, hv⟩
      · exact absurd h (List.not_mem_nil kv)

theorem priorityName_clean (p : Priority) : cleanValB (some (priorityName p)) = true := by
  cases p <;> decide

theorem statusName_clean (s : Status) : cleanValB (some (statusName s)) = true := by
  cases s <;> decide

theorem emptyMeta_none (k : Str) : emptyMeta k = none := rfl

/-- C1 amended: serializing a *clean* payload and reparsing it yields
exactly one record whose `title`, `tags` (as a set), `priority`, `status`,
`description`, `created` and `due` agree with the payload.  Clean means:
default checkbox, status `todo` (any non-`todo` status is serialized as a
`#status` token that the reparse collects as a tag — see the
counterexample), a title without `#`/glyphs/surrounding whitespace,
well-formed tag tokens, trimmed single-line metadata values, and a
remainder that triggers neither the in-progress nor the cancel keyword
scan. -/
theorem c1_round_trip (r : TaskPayload)
    (hcb : r.checkbox = none)
    (hst : r.status = some Status.todo)
    (htitle : cleanTitleB r.title = true)
    (htags : ∀ t ∈ r.tags.getD [], cleanTagB t = true)
    (hdescv : cleanValB r.description = true)
    (hcrev : cleanValB r.created = true)
    (hduev : cleanValB r.due = true)
    (hni : inProgTest (serRest r) = false)
    (hnc : cancelTest (serRest r) = false) :
    ∃ t, parseTasks1 (serializeTask r) = [t] ∧
      t.title = r.title ∧ (∀ x, x ∈ t.tags ↔ x ∈ r.tags.getD []) ∧
      t.priority = r.priority.map priorityName ∧ some t.status = r.status ∧
      t.description = r.description ∧ t.created = r.created ∧ t.due = r.due := by
  have hsi : statusInlinePart r = [] := by
    rw [statusInlinePart, hst]
    simp
  have hBshape : (if priorityEmoji r ≠ [] then ' ' :: priorityEmoji r else []) = [] ∨
      ∃ e, (if priorityEmoji r ≠ [] then ' ' :: priorityEmoji r else []) = [' ', e] ∧
        (e = '🔺' ∨ e = '⏫' ∨ e = '⏬') := by
    rcases hp : r.priority with _ | p
    · left
      simp [priorityEmoji, hp]
    · right
      cases p
      · exact ⟨'⏬', by simp [priorityEmoji, hp], Or.inr (Or.inr rfl)⟩
      · exact ⟨'⏫', by simp [priorityEmoji, hp], Or.inr (Or.inl rfl)⟩
      · exact ⟨'🔺', by simp [priorityEmoji, hp], Or.inl rfl⟩
  have hser : serRest r
      = r.title ++ (tagsExt (r.tags.getD [])
        ++ (if priorityEmoji r ≠ [] then ' ' :: priorityEmoji r else [])) := by
    rw [serRest, hsi, List.append_nil, List.append_assoc]
    rfl
  obtain ⟨hTags, hTitle, hTrim, hNoBreak, hHead, hNe⟩ :=
    restFacts r.title (r.tags.getD []) _ htitle htags hBshape
  rw [← hser] at hTags hTitle hTrim hNoBreak hHead hNe
  have hfl : serFirstLine r = '-' :: ' ' :: '[' :: ' ' :: ']' :: ' ' :: serRest r := by
    rw [serFirstLine, hcb]
    rfl
  have hmc : matchChecklist (serFirstLine r) = some (' ', serRest r) := by
    rw [hfl]
    unfold matchChecklist
    have hd1 : (('-' :: ' ' :: '[' :: ' ' :: ']' :: ' ' :: serRest r).dropWhile jsSpace)
        = '-' :: ' ' :: '[' :: ' ' :: ']' :: ' ' :: serRest r :=
      dropWhile_cons_of_neg _ _ (by decide)
    have hd2 : ((' ' :: '[' :: ' ' :: ']' :: ' ' :: serRest r).dropWhile jsSpace)
        = '[' :: ' ' :: ']' :: (' ' :: serRest r) := by
      rw [List.dropWhile_cons, if_pos (by decide)]
      exact dropWhile_cons_of_neg _ _ (by decide)
    have hd3 : ((' ' :: serRest r).dropWhile jsSpace) = serRest r := by
      rw [List.dropWhile_cons, if_pos (by decide)]
      exact dropWhile_eq_self_of_head _ hHead
    have hr : (serRest r).contains '\r' = false :=
      contains_eq_false_of_not_mem _ _ fun hm => hNoBreak '\r' hm (Or.inr rfl)
    have hn : (serRest r).contains '\n' = false :=
      contains_eq_false_of_not_mem _ _ fun hm => hNoBreak '\n' hm (Or.inl rfl)
    simp [hd1, hd2, hd3, hr, hn]
    exact ⟨fun hm => hNoBreak '\r' hm (Or.inr rfl), fun hm => hNoBreak '\n' hm (Or.inl rfl)⟩
  have hkvclean : ∀ kv ∈ presentKVs r, cleanValB (some kv.2) = true ∧ kv.1 ≠ [] ∧
      (∀ c ∈ kv.1, keyChar c = true) ∧ lcStr kv.1 = kv.1 := by
    intro kv hkv
    rw [presentKVs] at hkv
    rcases List.mem_append.mp hkv with hkv | hkv
    rotate_left
    · obtain ⟨hk1, ho, hne2⟩ := optKV_mem _ _ _ hkv
      rw [ho] at hdescv
      refine ⟨hdescv, ?_, ?_, ?_⟩ <;> rw [hk1] <;> decide
    rcases List.mem_append.mp hkv with hkv | hkv
    rotate_left
    · obtain ⟨hk1, ho, hne2⟩ := optKV_mem _ _ _ hkv
      rw [hst] at ho
      have h2 : kv.2 = statusName Status.todo := by
        simpa using ho.symm
      refine ⟨by rw [h2]; decide, ?_, ?_, ?_⟩ <;> rw [hk1] <;> decide
    rcases List.mem_append.mp hkv with hkv | hkv
    rotate_left
    · obtain ⟨hk1, ho, hne2⟩ := optKV_mem _ _ _ hkv
      obtain ⟨p, hp, hname⟩ := Option.map_eq_some'.mp ho
      refine ⟨by rw [← hname]; exact priorityName_clean p, ?_, ?_, ?_⟩ <;> rw [hk1] <;> decide
    rcases List.mem_append.mp hkv with hkv | hkv
    · obtain ⟨hk1, ho, hne2⟩ := optKV_mem _ _ _ hkv
      rw [ho] at hcrev
      refine ⟨hcrev, ?_, ?_, ?_⟩ <;> rw [hk1] <;> decide
    · obtain ⟨hk1, ho, hne2⟩ := optKV_mem _ _ _ hkv
      rw [ho] at hduev
      refine ⟨hduev, ?_, ?_, ?_⟩ <;> rw [hk1] <;> decide
  have hmeta : metaLoop1 (serMeta r) emptyMeta
      = (metaFold (presentKVs r) emptyMeta, (presentKVs r).length, []) := by
    rw [serMeta_eq_map]
    apply metaLoop1_kvs
    intro kv hkv
    obtain ⟨hcv, hk1, hk2, hk3⟩ := hkvclean kv hkv
    obtain ⟨hvne, hvh, hvl, hvbr⟩ := cleanValB_spec kv.2 hcv
    exact ⟨fieldMatch_mk kv.1 kv.2 hk1 hk2 hvh hvbr, hk3,
      trimStr_eq_self kv.2 hvh hvl⟩
  have hlines : splitCRLF (serializeTask r) = serFirstLine r :: serMeta r := by
    rw [serializeTask]
    apply splitCRLF_joinLF _ (by simp)
    intro l hl c hc
    rcases List.mem_cons.mp hl with rfl | hl
    · rw [hfl] at hc
      simp only [List.mem_cons] at hc
      rcases hc with rfl | rfl | rfl | rfl | rfl | rfl | hc
      · decide
      · decide
      · decide
      · decide
      · decide
      · decide
      · exact hNoBreak c hc
    · rw [serMeta_eq_map] at hl
      obtain ⟨kv, hkv, rfl⟩ := List.mem_map.mp hl
      obtain ⟨hcv, hk1, hk2, hk3⟩ := hkvclean kv hkv
      obtain ⟨hvne, hvh, hvl, hvbr⟩ := cleanValB_spec kv.2 hcv
      rw [mkFieldLine] at hc
      simp only [List.cons_append, List.mem_cons] at hc
      rcases hc with rfl | rfl | hc
      · decide
      · decide
      · rcases List.mem_append.mp hc with hc | hc
        · intro hor
          rcases hor with rfl | rfl
          · have := keyChar_not_space _ (hk2 _ hc)
            exact absurd this (by decide)
          · have := keyChar_not_space _ (hk2 _ hc)
            exact absurd this (by decide)
        · simp only [List.mem_cons] at hc
          rcases hc with rfl | rfl | rfl | hc
          · decide
          · decide
          · decide
          · exact hvbr c hc
  have hderive : deriveStatus ' ' (trimStr (serRest r)) = Status.todo := by
    rw [hTrim, deriveStatus]
    simp [hni, hnc]
  have hcand : titleCandidate (trimStr (serRest r)) ≠ [] := by
    rw [hTrim, hTitle]
    exact (cleanTitleB_spec _ htitle).1
  have hparse : parseTasks1 (serializeTask r) = [{ startLine := 0, endLine := 0 + (presentKVs r).length, checkbox := ['[', ' ', ']'], title := titleCandidate (trimStr (serRest r)), description := metaFold (presentKVs r) emptyMeta (strL "description"), created := metaFold (presentKVs r) emptyMeta (strL "created"), due := metaFold (presentKVs r) emptyMeta (strL "due"), tags := dedupFirst (extractTags (trimStr (serRest r))), priority := metaFold (presentKVs r) emptyMeta (strL "priority"), status := deriveStatus ' ' (trimStr (serRest r)), raw := serFirstLine r }] := by
    simp only [parseTasks1]
    rw [hlines, List.length_cons]
    simp only [parseLoop1, hmc, hmeta]
    rw [if_pos hcand]
  refine ⟨_, hparse, ?_, ?_, ?_, ?_, ?_, ?_, ?_⟩
  · show titleCandidate (trimStr (serRest r)) = r.title
    rw [hTrim, hTitle]
  · show ∀ x, x ∈ dedupFirst (extractTags (trimStr (serRest r))) ↔ x ∈ r.tags.getD []
    intro x
    rw [hTrim, hTags]
    exact dedupFirst_mem _ x
  · show metaFold (presentKVs r) emptyMeta (strL "priority") = r.priority.map priorityName
    rw [presentKVs, metaFold_append, metaFold_append, metaFold_append, metaFold_append,
      metaFold_optKV_other _ _ _ _ (by decide), metaFold_optKV_other _ _ _ _ (by decide)]
    rcases hp : r.priority with _ | p
    · simp only [Option.map_none']
      rw [metaFold_optKV_none,
        metaFold_optKV_other _ _ _ _ (by decide), metaFold_optKV_other _ _ _ _ (by decide)]
      rfl
    · simp only [Option.map_some']
      rw [metaFold_optKV_same _ _ _ ((cleanValB_spec _ (priorityName_clean p)).1)]
  · show some (deriveStatus ' ' (trimStr (serRest r))) = r.status
    rw [hderive, hst]
  · show metaFold (presentKVs r) emptyMeta (strL "description") = r.description
    rw [presentKVs, metaFold_append, metaFold_append, metaFold_append, metaFold_append]
    rcases hd : r.description with _ | d
    · rw [metaFold_optKV_none,
        metaFold_optKV_other _ _ _ _ (by decide), metaFold_optKV_other _ _ _ _ (by decide),
        metaFold_optKV_other _ _ _ _ (by decide), metaFold_optKV_other _ _ _ _ (by decide)]
      rfl
    · rw [metaFold_optKV_same]
      rw [hd] at hdescv
      exact (cleanValB_spec d hdescv).1
  · show metaFold (presentKVs r) emptyMeta (strL "created") = r.created
    rw [presentKVs, metaFold_append, metaFold_append, metaFold_append, metaFold_append,
      metaFold_optKV_other _ _ _ _ (by decide), metaFold_optKV_other _ _ _ _ (by decide),
      metaFold_optKV_other _ _ _ _ (by decide), metaFold_optKV_other _ _ _ _ (by decide)]
    rcases hc : r.created with _ | c
    · rfl
    · rw [metaFold_optKV_same]
      rw [hc] at hcrev
      exact (cleanValB_spec c hcrev).1
  · show metaFold (presentKVs r) emptyMeta (strL "due") = r.due
    rw [presentKVs, metaFold_append, metaFold_append, metaFold_append, metaFold_append,
      metaFold_optKV_other _ _ _ _ (by decide), metaFold_optKV_other _ _ _ _ (by decide),
      metaFold_optKV_other _ _ _ _ (by decide)]
    rcases hdu : r.due with _ | d
    · rw [metaFold_optKV_none, metaFold_optKV_other _ _ _ _ (by decide)]
      rfl
    · rw [metaFold_optKV_same]
      rw [hdu] at hduev
      exact (cleanValB_spec d hduev).1

/-- A concrete clean payload exercising every optional field preserved by
the round trip. -/
def rtPayload : TaskPayload :=
  { checkbox := none
    title := strL "Do it"
    description := some (strL "notes here")
    created := some (strL "2026-01-08")
    due := some (strL "2026-01-10")
    tags := some [strL "#home", strL "#a/b_c"]
    priority := some Priority.high
    status := some Status.todo }

/-- Witness for `c1_round_trip`: the clean payload `rtPayload` satisfies
every hypothesis, and its serialization reparses to a single record
agreeing on all seven fields. -/
theorem c1_witness :
    (cleanTitleB rtPayload.title = true ∧ inProgTest (serRest rtPayload) = false ∧
      cancelTest (serRest rtPayload) = false) ∧
    ∃ t, parseTasks1 (serializeTask rtPayload) = [t] ∧ t.title = rtPayload.title ∧
      (∀ x, x ∈ t.tags ↔ x ∈ rtPayload.tags.getD []) ∧
      t.priority = rtPayload.priority.map priorityName ∧ some t.status = rtPayload.status ∧
      t.description = rtPayload.description ∧ t.created = rtPayload.created ∧
      t.due = rtPayload.due :=
  ⟨⟨by decide, by decide, by decide⟩,
    c1_round_trip rtPayload rfl rfl (by decide) (by decide) (by decide) (by decide) (by decide)
      (by decide) (by decide)⟩

/-- C1 counterexample: the payload `title = "Task"`, `status = in-progress`
has a non-empty title, yet reparsing its serialization yields a record
whose tag list is `["#in-progress"]` although the payload carried no tags:
the serializer appends the inline status token ` #in-progress`, and the
reparse collects it with the tag regex, so the round trip does not
preserve `tags` as a set. -/
theorem c1_counterexample :
    ({ title := strL "Task", status := some Status.inProgress } : TaskPayload).title ≠ [] ∧
    ({ title := strL "Task", status := some Status.inProgress } : TaskPayload).tags = none ∧
    (parseTasks1 (serializeTask
        { title := strL "Task", status := some Status.inProgress })).map QTTask.tags
      = [[strL "#in-progress"]] := by
  decide
